import Mathlib

/-!
# Zenith block-builder core: formal model and verification

A shallow embedding of the zenith block-builder auction service
(`package block`, `package store`, `package chain`, `package memstore`),
together with proofs about its bid-evaluation pipeline, order computation,
capacity packing, auction lifecycle, registration flow and validator-set
caches.

Modelling conventions:
* Transaction bytes are `List Nat`; chain messages are opaque tokens (`Nat`)
  interpreted by the chain adapter's `getPayment`.
* The chain adapter (`chain.Chain`) is a record of deterministic functions;
  fallible Go calls return `Option`/`Except`.
* Go `int64` quantities are modelled as `Int` (mathematical integers; the
  service's payment, byte and gas amounts are far from the 2^63 overflow
  boundary, and no claim is about wrap-around behaviour).
* Go `float64` allocation arithmetic (`store.Auction.ValidatorAllocation`,
  the `0.01` tolerance in `evaluateBid`) is modelled by exact rationals.
* `time.Time` values are `Option Int`, with `none` playing the role of the
  Go zero time (`IsZero`); `time.Now()` is an explicit `now` parameter.
* Timestamp bookkeeping fields (`CreatedAt`, `UpdatedAt`) that no examined
  property mentions are omitted from the records.
* The `mekabuild` signing-bytes constructions and SHA-256 transaction hash
  live in an external module (`github.com/meka-dev/mekatek-go`); they are
  modelled abstractly: sign-bytes as an inductive of their arguments, and
  the hash as an adapter-supplied function `hashTx`.
-/

namespace Zenith

/-- Raw transaction bytes (Go `[]byte`). -/
abbrev Tx := List Nat

/-- An opaque chain message; the adapter interprets it via `getPayment`. -/
abbrev Msg := Nat

/-- A decoded transaction (`chain.Transaction`): `Messages`, plus the
fallible `ByteCount` and `GasAmount` methods. -/
structure Txn where
  messages : List Msg
  byteCount : Option Int
  gasAmount : Option Int
deriving Repr, DecidableEq

/-- The canonical error kinds of `package block` (`block/util.go`), plus
`notFound` (`store.ErrNotFound`) and a catch-all for `fmt.Errorf` errors. -/
inductive Err where
  | tooOld
  | tooNew
  | unavailable
  | finished
  | invalidRequest
  | badSignature
  | notFound
  | other (msg : String)
deriving Repr, DecidableEq

/-- Modelled from the spec: deterministic signing-byte constructions of the
external `mekabuild` contract (`RegisterChallengeSignBytes`,
`BuildBlockRequestSignBytes` over `HashTxs`), represented abstractly as an
inductive of their arguments. -/
inductive SignMsg where
  | registerChallenge (chainID : String) (challenge : List Nat)
  | buildBlock (chainID : String) (height : Int) (validatorAddr : String)
      (maxBytes maxGas : Int) (txs : List Tx)
deriving Repr, DecidableEq

/-- `store.Payment`. -/
structure Payment where
  From : String
  To : String
  Amount : Int
deriving Repr, DecidableEq

/-- `store.BidKind`. -/
inductive BidKind where
  | top
  | block
deriving Repr, DecidableEq

/-- `store.BidState`; `unevaluated` is the Go zero value `""`, which marks
bids persisted before evaluation results were stored. -/
inductive BidState where
  | unevaluated
  | pending
  | accepted
  | rejected
deriving Repr, DecidableEq

/-- `store.Bid` (UUIDs modelled as `Nat`). -/
structure Bid where
  id : Nat
  chainID : String
  height : Int
  kind : BidKind
  txs : List Tx
  priority : Int
  mekatekPayment : Int
  validatorPayment : Int
  payments : List Payment
  state : BidState
deriving Repr, DecidableEq

/-- `store.Auction`; `finishedAt = none` is the Go zero time ("open"). -/
structure Auction where
  chainID : String
  height : Int
  validatorAddress : String
  validatorAllocation : Rat
  validatorPaymentAddress : String
  mekatekPaymentAddress : String
  paymentDenom : String
  registeredPower : Int
  totalPower : Int
  finishedAt : Option Int
deriving Repr, DecidableEq

/-- `store.Chain` (the fields the core reads). -/
structure ChainRec where
  id : String
  mekatekPaymentAddress : String
  paymentDenom : String
deriving Repr, DecidableEq

/-- `store.Validator`. -/
structure ValidatorRec where
  chainID : String
  address : String
  moniker : String
  pubKeyBytes : List Nat
  pubKeyType : String
  paymentAddress : String
deriving Repr, DecidableEq

/-- `store.Challenge` (UUIDs modelled as `Nat`). -/
structure ChallengeRec where
  id : Nat
  chainID : String
  validatorAddress : String
  pubKeyBytes : List Nat
  pubKeyType : String
  paymentAddress : String
  challenge : List Nat
deriving Repr, DecidableEq

/-- `chain.Validator` (a member of a validator set). -/
structure ChainVal where
  address : String
  moniker : String
  paymentAddress : String
  pubKeyType : String
  pubKeyBytes : List Nat
  votingPower : Int
deriving Repr, DecidableEq

/-- `chain.ValidatorSet`: the `Set` map is an association list. -/
structure ValSet where
  height : Int
  set : List (String × ChainVal)
  totalPower : Int
deriving Repr, DecidableEq

/-- The consumed `chain.Chain` adapter interface, as a record of
deterministic functions. -/
structure ChainM where
  id : String
  latestHeight : Except String Int
  validatorSet : Int → Except String ValSet
  predictProposer : ValSet → Int → Except String ChainVal
  verifySignature : String → List Nat → SignMsg → List Nat → Bool
  decodeTx : Tx → Option Txn
  encodeTx : Txn → Option Tx
  getPayment : Msg → String → Option (String × String × Int)
  accountBalance : Int → String → String → Except String Int
  hashTx : Tx → String
  validatePaymentAddress : String → Bool

/-- First-match association-list lookup (Go map read). -/
def lookupA {K V : Type} [DecidableEq K] (l : List (K × V)) (k : K) : Option V :=
  match l with
  | [] => none
  | (k', v) :: rest => if k' = k then some v else lookupA rest k

/-- `Except` success as a `Bool` (Go `err == nil`). -/
def isOkE {ε α : Type} : Except ε α → Bool
  | .ok _ => true
  | .error _ => false

/-- ASCII lower-casing of one character (the address and bid-kind strings
the service compares are ASCII). -/
def lowerChar (ch : Char) : Char :=
  if 65 ≤ ch.toNat ∧ ch.toNat ≤ 90 then Char.ofNat (ch.toNat + 32) else ch

/-- `strings.ToLower`, modelled as ASCII case-folding. -/
def lowerString (s : String) : String :=
  ⟨s.data.map lowerChar⟩

/-- `sameAddr` (`block/util.go`): `strings.EqualFold`, modelled as
case-insensitive comparison via lowercasing. -/
def sameAddr (a b : String) : Bool :=
  lowerString a == lowerString b

/-- `store.ParseBidKind`: lowercase `"block"` parses as a block bid, any
other string parses as a top-of-block bid. -/
def parseBidKind (s : String) : BidKind :=
  if lowerString s == "block" then .block else .top

/-- `store.ParseBidState`. -/
def parseBidState (s : String) : BidState :=
  if lowerString s == "accepted" then .accepted
  else if lowerString s == "rejected" then .rejected
  else .pending

/-!
## Bid evaluation (`evaluateBid`, block service)
-/

/-- The message loop of `evaluateBid` for one decoded transaction:
accumulates the recognized payments and the validator/mekatek totals. -/
def evalMsgs (c : ChainM) (a : Auction) (msgs : List Msg) :
    List Payment × Int × Int :=
  msgs.foldl
    (fun acc msg =>
      match c.getPayment msg a.paymentDenom with
      | none => acc
      | some (src, dst, amount) =>
        if sameAddr dst a.validatorPaymentAddress then
          (acc.1 ++ [⟨src, dst, amount⟩], acc.2.1 + amount, acc.2.2)
        else if sameAddr dst a.mekatekPaymentAddress then
          (acc.1 ++ [⟨src, dst, amount⟩], acc.2.1, acc.2.2 + amount)
        else acc)
    ([], 0, 0)

/-- One iteration of `evaluateBid`'s transaction loop: decode, re-encode
(normalize), then walk the messages.  A transaction that fails to decode or
re-encode is skipped: its original bytes are kept and it contributes no
payments.  Returns (resulting bytes, payments, validator total, mekatek
total). -/
def evalTx (c : ChainM) (a : Auction) (txb : Tx) : Tx × List Payment × Int × Int :=
  match c.decodeTx txb with
  | none => (txb, [], 0, 0)
  | some tx =>
    match c.encodeTx tx with
    | none => (txb, [], 0, 0)
    | some txbNormalized =>
      let r := evalMsgs c a tx.messages
      (txbNormalized, r.1, r.2.1, r.2.2)

/-- The per-transaction results of `evaluateBid`'s loop over `bid.Txs`. -/
def evalResults (c : ChainM) (a : Auction) (txs : List Tx) :
    List (Tx × List Payment × Int × Int) :=
  txs.map (evalTx c a)

/-- `bid.Txs` after evaluation: each transaction replaced by its normalized
encoding when decode and re-encode succeed, kept verbatim otherwise. -/
def normalizedTxs (c : ChainM) (a : Auction) (txs : List Tx) : List Tx :=
  (evalResults c a txs).map (·.1)

/-- The `payments` list accumulated by `evaluateBid`. -/
def bidPaymentsList (c : ChainM) (a : Auction) (txs : List Tx) : List Payment :=
  ((evalResults c a txs).map (·.2.1)).flatten

/-- The `validatorPayment` total accumulated by `evaluateBid`. -/
def bidValidatorPayment (c : ChainM) (a : Auction) (txs : List Tx) : Int :=
  ((evalResults c a txs).map (·.2.2.1)).sum

/-- The `mekatekPayment` total accumulated by `evaluateBid`. -/
def bidMekatekPayment (c : ChainM) (a : Auction) (txs : List Tx) : Int :=
  ((evalResults c a txs).map (·.2.2.2)).sum

/-- The allocation tolerance of `evaluateBid` (`allocationTolerance = 0.01`). -/
def allocationTolerance : Rat := 1 / 100

/-- `evaluateBid` (block service): normalizes the bid's transactions,
extracts payments to the auction's validator and mekatek addresses, rejects
the bid when there are no payments (`totalPayment <= 0`) or when the
payment allocation differs from the auction's by at least the tolerance
(the Go code accepts only strictly-smaller differences), and otherwise
returns the updated bid with `Priority = totalPayment`. -/
def evaluateBid (c : ChainM) (a : Auction) (b : Bid) : Except Err Bid :=
  let vp := bidValidatorPayment c a b.txs
  let mp := bidMekatekPayment c a b.txs
  let totalPayment := vp + mp
  if totalPayment ≤ 0 then
    .error .invalidRequest
  else
    let wantValidatorAllocation : Rat := a.validatorAllocation
    let wantMekatekAllocation : Rat := 1 - a.validatorAllocation
    let haveValidatorAllocation : Rat := (vp : Rat) / (totalPayment : Rat)
    let haveMekatekAllocation : Rat := (mp : Rat) / (totalPayment : Rat)
    if |wantValidatorAllocation - haveValidatorAllocation| < allocationTolerance ∧
       |wantMekatekAllocation - haveMekatekAllocation| < allocationTolerance then
      .ok { b with
            txs := normalizedTxs c a b.txs
            priority := totalPayment
            mekatekPayment := mp
            validatorPayment := vp
            payments := bidPaymentsList c a b.txs }
    else
      .error (.other "payment allocation")

/-- `FixedAllocation = 0.97` (`block/util.go`). -/
def FixedAllocation : Rat := 97 / 100

/-!
## Order computation (`computeOrder`) and capacity packing
(`selectTransactions`)
-/

/-- `getTxBytes` (`block/util.go`): decode, then `ByteCount`. -/
def getTxBytes (c : ChainM) (tx : Tx) : Option Int :=
  (c.decodeTx tx).bind (·.byteCount)

/-- `getTxGas` (`block/util.go`): decode, then `GasAmount`. -/
def getTxGas (c : ChainM) (tx : Tx) : Option Int :=
  (c.decodeTx tx).bind (·.gasAmount)

/-- `computeOrder`: evaluate any bid whose state is still the zero value
(bids persisted before evaluation results were stored); a failing
evaluation fails the whole call. -/
def evalPendings (c : ChainM) (a : Auction) : List Bid → Except Err (List Bid)
  | [] => .ok []
  | b :: rest =>
    match (if b.state = .unevaluated then evaluateBid c a b else .ok b) with
    | .error e => .error e
    | .ok b' =>
      match evalPendings c a rest with
      | .error e => .error e
      | .ok rest' => .ok (b' :: rest')

/-- The distinct `From` addresses across all bids' payments (the
`queryBalances` set of `computeOrder`). -/
def paymentAddrs (bids : List Bid) : List String :=
  (bids.flatMap (fun b => b.payments.map (·.From))).dedup

/-- The `senderBalances` snapshot of `computeOrder`: one entry per payment
address whose `AccountBalance(height-1, addr, denom)` lookup succeeds;
failing lookups are skipped, so those addresses read as balance 0 later. -/
def senderBalances (c : ChainM) (a : Auction) (bids : List Bid) : List (String × Int) :=
  (paymentAddrs bids).foldl
    (fun m addr =>
      match c.accountBalance (a.height - 1) addr a.paymentDenom with
      | .error _ => m
      | .ok bal => m ++ [(addr, bal)])
    []

/-- Go map read with zero default (`senderBalancesCopy[p.From]`). -/
def balGet (m : List (String × Int)) (addr : String) : Int :=
  (lookupA m addr).getD 0

/-- Go map write. -/
def balSet (m : List (String × Int)) (addr : String) (v : Int) : List (String × Int) :=
  if (lookupA m addr).isSome then
    m.map (fun p => if p.1 = addr then (addr, v) else p)
  else m ++ [(addr, v)]

/-- The insufficient-funds check of `computeOrder`'s walk: debit each
payment on a copy of the balances; `none` when some balance would go
negative. -/
def debitPayments (m : List (String × Int)) : List Payment → Option (List (String × Int))
  | [] => some m
  | p :: rest =>
    let result := balGet m p.From - p.Amount
    if result < 0 then none
    else debitPayments (balSet m p.From result) rest

/-- The bid comparator of `computeOrder`'s sort: priority descending,
ties broken by bid ID ascending. -/
def bidBefore (b1 b2 : Bid) : Bool :=
  if b1.priority ≠ b2.priority then b2.priority < b1.priority
  else b1.id < b2.id

/-- Stable insertion step for `sortBids`. -/
def insertByPriority (b : Bid) : List Bid → List Bid
  | [] => [b]
  | x :: xs => if bidBefore x b then x :: insertByPriority b xs else b :: x :: xs

/-- `sort.SliceStable` over the bids with `bidBefore`, modelled as a stable
insertion sort. -/
def sortBids (l : List Bid) : List Bid :=
  l.foldr insertByPriority []

/-- The accumulator of `computeOrder`'s walk over the sorted bids. -/
structure WalkAcc where
  winners : List Bid
  rejected : List Bid
  claimed : List String
  balances : List (String × Int)
deriving Repr, DecidableEq

/-- One iteration of `computeOrder`'s walk: reject a top-of-block bid when
the block already has a winner, reject bids with already-claimed
transaction hashes, reject bids with unsatisfiable payments, otherwise
accept: commit the debited balances and claim the bid's hashes. -/
def walkStep (c : ChainM) (acc : WalkAcc) (eb : Bid) : WalkAcc :=
  if eb.kind = BidKind.top ∧ acc.winners ≠ [] then
    { acc with rejected := acc.rejected ++ [{ eb with state := .rejected }] }
  else if eb.txs.any (fun tx => acc.claimed.contains (c.hashTx tx)) then
    { acc with rejected := acc.rejected ++ [{ eb with state := .rejected }] }
  else
    match debitPayments acc.balances eb.payments with
    | none => { acc with rejected := acc.rejected ++ [{ eb with state := .rejected }] }
    | some newBalances =>
      { acc with
        winners := acc.winners ++ [eb]
        claimed := acc.claimed ++ eb.txs.map c.hashTx
        balances := newBalances }

/-- The mempool-remainder loop of `computeOrder`: keep mempool
transactions whose hash is not yet claimed, claiming each kept hash. -/
def mempoolRemainder (c : ChainM) (claimed : List String) (mempoolTxs : List Tx) :
    List Tx × List String :=
  mempoolTxs.foldl
    (fun acc tx =>
      if acc.2.contains (c.hashTx tx) then acc
      else (acc.1 ++ [tx], acc.2 ++ [c.hashTx tx]))
    ([], claimed)

/-- `computeOrder` (block service): evaluate stale bids, snapshot sender
balances, sort by priority, walk the sorted bids selecting winners, then
append the unclaimed mempool remainder.  Returns (winning bids, rejected
bids, remaining mempool transactions). -/
def computeOrder (c : ChainM) (a : Auction) (bids : List Bid) (mempoolTxs : List Tx) :
    Except Err (List Bid × List Bid × List Tx) :=
  match evalPendings c a bids with
  | .error e => .error e
  | .ok evaluatedBids =>
    let balances := senderBalances c a evaluatedBids
    let sorted := sortBids evaluatedBids
    let w := sorted.foldl (walkStep c) ⟨[], [], [], balances⟩
    .ok (w.winners, w.rejected, (mempoolRemainder c w.claimed mempoolTxs).1)

/-- `txBundle` (block service). -/
structure TxBundle where
  source : String
  txs : List Tx
  validatorPayment : Int
  mekatekPayment : Int
deriving Repr, DecidableEq

/-- `math.MaxInt64`, the effective limit when a caller passes `-1`. -/
def maxInt64 : Int := 2 ^ 63 - 1

/-- The byte/gas contribution one transaction makes to the totals of
`selectTransactions`: its looked-up size and gas when both lookups
succeed, and zero otherwise (the Go loop `continue`s on either error). -/
def txContrib (c : ChainM) (tx : Tx) : Int × Int :=
  match getTxBytes c tx with
  | none => (0, 0)
  | some nb =>
    match getTxGas c tx with
    | none => (0, 0)
    | some g => (nb, g)

/-- The total byte/gas contribution of a bid's transactions (`bidBytes`,
`bidGas`). -/
def bidSize (c : ChainM) (txs : List Tx) : Int × Int :=
  txs.foldl (fun acc tx => (acc.1 + (txContrib c tx).1, acc.2 + (txContrib c tx).2)) (0, 0)

/-- The accumulator of `selectTransactions`. -/
structure SelAcc where
  bundles : List TxBundle
  acceptedBids : List Bid
  rejectedBids : List Bid
  totalBytes : Int
  totalGas : Int
deriving Repr, DecidableEq

/-- One iteration of `selectTransactions`' bid loop: a bid is accepted or
rejected atomically; a bid that would overflow either limit is rejected
and later bids are still considered. -/
def selectBidStep (c : ChainM) (mB mG : Int) (acc : SelAcc) (eb : Bid) : SelAcc :=
  let bidBytes := (bidSize c eb.txs).1
  let bidGas := (bidSize c eb.txs).2
  if acc.totalBytes + bidBytes > mB ∨ acc.totalGas + bidGas > mG then
    { acc with rejectedBids := acc.rejectedBids ++ [{ eb with state := .rejected }] }
  else
    { acc with
      acceptedBids := acc.acceptedBids ++ [{ eb with state := .accepted }]
      totalBytes := acc.totalBytes + bidBytes
      totalGas := acc.totalGas + bidGas
      bundles := acc.bundles ++
        [⟨"bid " ++ toString eb.id, eb.txs, eb.validatorPayment, eb.mekatekPayment⟩] }

/-- One iteration of `selectTransactions`' mempool loop: a transaction
whose size or gas lookup fails is skipped; one that would overflow either
limit is skipped; otherwise it is added as its own bundle. -/
def selectTxStep (c : ChainM) (mB mG : Int) (acc : SelAcc) (tx : Tx) : SelAcc :=
  match getTxBytes c tx with
  | none => acc
  | some txBytes =>
    match getTxGas c tx with
    | none => acc
    | some txGas =>
      if acc.totalBytes + txBytes > mB ∨ acc.totalGas + txGas > mG then acc
      else
        { acc with
          totalBytes := acc.totalBytes + txBytes
          totalGas := acc.totalGas + txGas
          bundles := acc.bundles ++ [⟨"mempool", [tx], 0, 0⟩] }

/-- `selectTransactions` (block service): pack the winning bids, then the
mempool transactions, greedily under the byte and gas limits (`-1` means
`math.MaxInt64`).  Returns (bundles, accepted bids, rejected bids, used
bytes, used gas). -/
def selectTransactions (c : ChainM) (winningBids : List Bid) (txs : List Tx)
    (maxBytes maxGas : Int) : List TxBundle × List Bid × List Bid × Int × Int :=
  let mB := if maxBytes = -1 then maxInt64 else maxBytes
  let mG := if maxGas = -1 then maxInt64 else maxGas
  let acc1 := winningBids.foldl (selectBidStep c mB mG) ⟨[], [], [], 0, 0⟩
  let acc2 := txs.foldl (selectTxStep c mB mG) acc1
  (acc2.bundles, acc2.acceptedBids, acc2.rejectedBids, acc2.totalBytes, acc2.totalGas)

/-- The flattening of the tx bundles into the final block transaction
list, as done by `Build` and `BuildV1`. -/
def flattenBundles (bs : List TxBundle) : List Tx :=
  (bs.map (·.txs)).flatten

/-- The deterministic block-building core shared verbatim by `Build` and
`BuildV1` after the auction is claimed: `computeOrder`, then
`selectTransactions`, then flatten. -/
def buildBlockTxs (c : ChainM) (a : Auction) (bids : List Bid) (mempoolTxs : List Tx)
    (maxBytes maxGas : Int) : Except Err (List Tx) :=
  match computeOrder c a bids mempoolTxs with
  | .error e => .error e
  | .ok (w, _, rem) => .ok (flattenBundles (selectTransactions c w rem maxBytes maxGas).1)

/-!
## Validator-set caches (`chain.condCache`, `chain.ringCache`)

Sequential model: each `Get(k, fill)` runs to completion; the outcome of
the underlying `fill` call is supplied as an oracle argument.
-/

/-- Association-list removal of a key (Go `delete(m, k)`; map keys are
unique, so removing every binding of `k` is the faithful model). -/
def eraseA {K V : Type} [DecidableEq K] (l : List (K × V)) (k : K) : List (K × V) :=
  l.filter (fun p => decide (p.1 ≠ k))

/-- The state of a `condCache`: the `cache` map and the LRU `order` line
(least-recently-used key first). -/
structure CondCacheSt (K V : Type) where
  limit : Nat
  cache : List (K × Except String V)
  order : List K

/-- `seq.poke`: move `key` up to the most-recent end of the line; when the
line exceeds `max`, split off the least-recently-used keys at the front.
Returns (new line, keys the caller must also remove). -/
def pokeSeq {K : Type} [DecidableEq K] (s : List K) (max : Nat) (k : K) : List K × List K :=
  let s' := if s.contains k then s.erase k ++ [k] else s ++ [k]
  (s'.drop (s'.length - max), s'.take (s'.length - max))

/-- One sequential `condCache.Get`: on a hit, return the cached result and
poke the LRU line; on a miss, insert the item, poke (evicting
least-recently-used keys), then resolve the fill — a failing fill deletes
the entry again (`c.del`). -/
def condGet {K V : Type} [DecidableEq K] (st : CondCacheSt K V) (k : K)
    (fl : Except String V) : Except String V × CondCacheSt K V :=
  match lookupA st.cache k with
  | some r =>
    let p := pokeSeq st.order st.limit k
    (r, { st with order := p.1, cache := p.2.foldl (fun m kill => eraseA m kill) st.cache })
  | none =>
    let cache1 := st.cache ++ [(k, fl)]
    let p := pokeSeq st.order st.limit k
    let cache2 := p.2.foldl (fun m kill => eraseA m kill) cache1
    match fl with
    | .error e => (.error e, { st with cache := eraseA cache2 k, order := p.1.filter (· ≠ k) })
    | .ok v => (.ok v, { st with cache := cache2, order := p.1 })

/-- A fresh `condCache` of the given capacity. -/
def condInit (K V : Type) (limit : Nat) : CondCacheSt K V :=
  ⟨limit, [], []⟩

/-- Run a sequence of `condCache.Get` operations, each given as
(key, fill outcome). -/
def condRun {K V : Type} [DecidableEq K] (limit : Nat)
    (ops : List (K × Except String V)) : CondCacheSt K V :=
  ops.foldl (fun st op => (condGet st op.1 op.2).2) (condInit K V limit)

/-- The state of a `ringCache`: the key→slot index, the ring of slots
(`none` is a nil slot), and the next slot to reuse. -/
structure RingCacheSt (K V : Type) where
  index : List (K × Nat)
  ring : List (Option (K × Except String V))
  head : Nat

/-- A fresh `ringCache` of the given capacity. -/
def ringInit (K V : Type) (capacity : Nat) : RingCacheSt K V :=
  ⟨[], List.replicate capacity none, 0⟩

/-- One sequential `ringCache.Get`: a hit returns the slot's result; a
miss runs `c.item` — evict the key occupying the head slot, install the
new item there, advance the head — and then resolves the fill, deleting
the entry (`c.del`) when the fill failed. -/
def ringGet {K V : Type} [DecidableEq K] (st : RingCacheSt K V) (k : K)
    (fl : Except String V) : Except String V × RingCacheSt K V :=
  match lookupA st.index k with
  | some pos =>
    match st.ring.getD pos none with
    | some it => (it.2, st)
    | none => (fl, st)  -- unreachable under the ring invariant
  | none =>
    let index1 :=
      match st.ring.getD st.head none with
      | some old => eraseA st.index old.1
      | none => st.index
    let index2 := index1 ++ [(k, st.head)]
    match fl with
    | .ok _ =>
      (fl, { index := index2
             ring := st.ring.set st.head (some (k, fl))
             head := (st.head + 1) % st.ring.length })
    | .error e =>
      (.error e,
       { index := eraseA index2 k
         ring := st.ring.set st.head none
         head := (st.head + 1) % st.ring.length })

/-- Run a sequence of `ringCache.Get` operations, each given as
(key, fill outcome). -/
def ringRun {K V : Type} [DecidableEq K] (capacity : Nat)
    (ops : List (K × Except String V)) : RingCacheSt K V :=
  ops.foldl (fun st op => (ringGet st op.1 op.2).2) (ringInit K V capacity)

/-!
## Store (`memstore.Store`) and the service endpoints

The in-memory store is modelled with association lists; `Transact` applies
its body directly (the memstore has no rollback), so state changes made
before a failing step persist, exactly as in the Go implementation.
Random UUIDs are modelled by the `nextId` counter.
-/

/-- The persistent state owned by the store. -/
structure StoreSt where
  chains : List (String × ChainRec)
  auctions : List ((String × Int) × Auction)
  bids : List Bid
  validators : List ((String × String) × ValidatorRec)
  challenges : List (Nat × ChallengeRec)
  nextId : Nat
deriving Repr, DecidableEq

/-- `Store.SelectChain`. -/
def selectChain (st : StoreSt) (id : String) : Option ChainRec :=
  lookupA st.chains id

/-- `Store.SelectAuction`. -/
def selectAuction (st : StoreSt) (chainID : String) (height : Int) : Option Auction :=
  lookupA st.auctions (chainID, height)

/-- `Store.UpsertAuction`: on an existing row only `FinishedAt` is
modified; otherwise the auction is inserted. -/
def upsertAuction (st : StoreSt) (a : Auction) : StoreSt :=
  match lookupA st.auctions (a.chainID, a.height) with
  | some existing =>
    { st with auctions := st.auctions.map (fun p =>
        if p.1 = (a.chainID, a.height) then (p.1, { existing with finishedAt := a.finishedAt })
        else p) }
  | none => { st with auctions := st.auctions ++ [((a.chainID, a.height), a)] }

/-- `Store.ListBids`: the bids of one (chain, height), in insertion
order. -/
def listBids (st : StoreSt) (chainID : String) (height : Int) : List Bid :=
  st.bids.filter (fun b => b.chainID == chainID && b.height == height)

/-- `Store.InsertBid`: assigns a fresh ID and appends. -/
def insertBid (st : StoreSt) (b : Bid) : StoreSt × Bid :=
  let nb := { b with id := st.nextId }
  ({ st with bids := st.bids ++ [nb], nextId := st.nextId + 1 }, nb)

/-- `Store.UpdateBids` for one bid: only `State` is copied onto the first
stored bid with the same ID and key. -/
def updateBidIn (l : List Bid) (b : Bid) : List Bid :=
  match l with
  | [] => []
  | o :: rest =>
    if o.chainID == b.chainID && o.height == b.height && o.id == b.id then
      { o with state := b.state } :: rest
    else o :: updateBidIn rest b

/-- `Store.UpdateBids`. -/
def updateBids (st : StoreSt) (bs : List Bid) : StoreSt :=
  { st with bids := bs.foldl updateBidIn st.bids }

/-- `Store.SelectValidator`. -/
def selectValidator (st : StoreSt) (chainID addr : String) : Option ValidatorRec :=
  lookupA st.validators (chainID, addr)

/-- `Store.UpsertValidator`: update only moniker and payment address on an
existing row; insert otherwise. -/
def upsertValidator (st : StoreSt) (v : ValidatorRec) : StoreSt :=
  match lookupA st.validators (v.chainID, v.address) with
  | some existing =>
    { st with validators := st.validators.map (fun p =>
        if p.1 = (v.chainID, v.address) then
          (p.1, { existing with moniker := v.moniker, paymentAddress := v.paymentAddress })
        else p) }
  | none => { st with validators := st.validators ++ [((v.chainID, v.address), v)] }

/-- Sorted insertion for `listValidators` (address ascending, stable). -/
def insertByAddr (v : ValidatorRec) : List ValidatorRec → List ValidatorRec
  | [] => [v]
  | x :: xs => if x.address < v.address then x :: insertByAddr v xs else v :: x :: xs

/-- `Store.ListValidators`: the chain's validators sorted by address. -/
def listValidators (st : StoreSt) (chainID : String) : List ValidatorRec :=
  ((st.validators.filter (fun p => p.1.1 == chainID)).map (·.2)).foldr insertByAddr []

/-- `Store.SelectChallenge`. -/
def selectChallenge (st : StoreSt) (id : Nat) : Option ChallengeRec :=
  lookupA st.challenges id

/-- `Store.InsertChallenge`: assigns a fresh ID and appends. -/
def insertChallenge (st : StoreSt) (ch : ChallengeRec) : StoreSt × ChallengeRec :=
  let c2 := { ch with id := st.nextId }
  ({ st with challenges := st.challenges ++ [(c2.id, c2)], nextId := st.nextId + 1 }, c2)

/-- `Store.DeleteChallenge` (the caller ignores its not-found error). -/
def deleteChallenge (st : StoreSt) (id : Nat) : StoreSt :=
  { st with challenges := eraseA st.challenges id }

/-- `RegisteredPower` at auction creation: the summed voting power of the
registered validators that appear in the current validator set. -/
def registeredPowerOf (vs : ValSet) (registered : List ValidatorRec) : Int :=
  registered.foldl
    (fun acc v =>
      match lookupA vs.set v.address with
      | some vv => acc + vv.votingPower
      | none => acc)
    0

/-- `verifyAuction` (block service): check the chain, the height window
(`latestHeight ≤ height ≤ latestHeight + maxHeightOffset`), the predicted
proposer's registration, and the auction state; materialize the auction on
first use.  Returns the result together with the (possibly extended) store
state. -/
def verifyAuction (c : ChainM) (height maxHeightOffset : Int) (st : StoreSt) :
    Except Err (Auction × ValidatorRec) × StoreSt :=
  match selectChain st c.id with
  | none => (.error .notFound, st)
  | some ch =>
    match c.latestHeight with
    | .error e => (.error (.other e), st)
    | .ok latestHeight =>
      match c.validatorSet latestHeight with
      | .error e => (.error (.other e), st)
      | .ok vs =>
        if vs.height ≠ latestHeight then (.error (.other "valset height mismatch"), st)
        else if height < latestHeight then (.error .tooOld, st)
        else if height > latestHeight + maxHeightOffset then (.error .tooNew, st)
        else
          match c.predictProposer vs height with
          | .error e => (.error (.other e), st)
          | .ok p =>
            match selectValidator st c.id p.address with
            | none => (.error .unavailable, st)
            | some v =>
              let create :=
                match selectAuction st c.id height with
                | some a => (a, st)
                | none =>
                  let a : Auction :=
                    { chainID := c.id
                      height := height
                      validatorAddress := v.address
                      validatorAllocation := FixedAllocation
                      validatorPaymentAddress := v.paymentAddress
                      mekatekPaymentAddress := ch.mekatekPaymentAddress
                      paymentDenom := ch.paymentDenom
                      registeredPower := registeredPowerOf vs (listValidators st c.id)
                      totalPower := vs.totalPower
                      finishedAt := none }
                  (a, upsertAuction st a)
              if create.1.finishedAt.isSome then (.error .finished, create.2)
              else if v.address ≠ create.1.validatorAddress then
                (.error (.other "mismatched validators"), create.2)
              else (.ok (create.1, v), create.2)

/-- `CoreService.Auction`: `verifyAuction` with height offset 10. -/
def auctionReq (c : ChainM) (st : StoreSt) (height : Int) : Except Err Auction × StoreSt :=
  match verifyAuction c height 10 st with
  | (.error e, st') => (.error e, st')
  | (.ok (a, _), st') => (.ok a, st')

/-- `CoreService.Bid`: fetch or create the auction (offset 10), build a
pending bid, evaluate it, insert it. -/
def bidReq (c : ChainM) (st : StoreSt) (height : Int) (kind : String) (txs : List Tx) :
    Except Err Bid × StoreSt :=
  match auctionReq c st height with
  | (.error e, st') => (.error e, st')
  | (.ok auction, st') =>
    let bid : Bid :=
      { id := 0
        chainID := auction.chainID
        height := auction.height
        kind := parseBidKind kind
        txs := txs
        priority := 0
        mekatekPayment := 0
        validatorPayment := 0
        payments := []
        state := .pending }
    match evaluateBid c auction bid with
    | .error e => (.error e, st')
    | .ok bid' =>
      let ins := insertBid st' bid'
      (.ok ins.2, ins.1)

/-- `CoreService.Build`: verify and claim the auction (offset 2), check
the proposer's signature, mark the auction finished, then compute the
block and persist the final bid states. -/
def buildReq (c : ChainM) (now : Int) (st : StoreSt) (height : Int) (validatorAddr : String)
    (maxBytes maxGas : Int) (txs : List Tx) (sig : List Nat) :
    Except Err (List Tx × String) × StoreSt :=
  match verifyAuction c height 2 st with
  | (.error e, st') => (.error e, st')
  | (.ok (auction, proposer), st') =>
    if ¬ c.verifySignature proposer.pubKeyType proposer.pubKeyBytes
        (.buildBlock c.id height validatorAddr maxBytes maxGas txs) sig then
      (.error .badSignature, st')
    else
      let auction' := { auction with finishedAt := some now }
      let st2 := upsertAuction st' auction'
      let allBids := listBids st2 c.id height
      if auction.validatorAddress ≠ proposer.address then
        (.error (.other "proposer changed"), st2)
      else
        match computeOrder c auction' allBids txs with
        | .error e => (.error e, st2)
        | .ok (winningBids, losingBids, remainingTxs) =>
          let sel := selectTransactions c winningBids remainingTxs maxBytes maxGas
          let st3 := updateBids st2 (losingBids ++ sel.2.1 ++ sel.2.2.1)
          (.ok (flattenBundles sel.1,
                toString ((sel.1.map (·.validatorPayment)).sum) ++ auction'.paymentDenom),
           st3)

/-- `CoreService.BuildV1`: like `Build`, but inlined height checks, the
proposer check against the caller, and validator auto-registration
(upsert) at claim time instead of the must-be-registered check. -/
def buildV1Req (c : ChainM) (now : Int) (st : StoreSt) (buildHeight : Int)
    (validatorAddr : String) (maxBytes maxGas : Int) (txs : List Tx) (sig : List Nat) :
    Except Err (List Tx × String) × StoreSt :=
  match selectChain st c.id with
  | none => (.error .notFound, st)
  | some ch =>
    match c.latestHeight with
    | .error e => (.error (.other e), st)
    | .ok latestHeight =>
      match c.validatorSet latestHeight with
      | .error e => (.error (.other e), st)
      | .ok vs =>
        if vs.height ≠ latestHeight then (.error (.other "valset height mismatch"), st)
        else if buildHeight < latestHeight then (.error .tooOld, st)
        else if buildHeight > latestHeight + 2 then (.error .tooNew, st)
        else
          match c.predictProposer vs buildHeight with
          | .error e => (.error (.other e), st)
          | .ok p =>
            if p.address ≠ validatorAddr then (.error (.other "wrong proposer"), st)
            else if ¬ c.verifySignature p.pubKeyType p.pubKeyBytes
                (.buildBlock c.id buildHeight validatorAddr maxBytes maxGas txs) sig then
              (.error .badSignature, st)
            else
              let st1 := upsertValidator st
                { chainID := c.id
                  address := p.address
                  moniker := p.moniker
                  pubKeyBytes := p.pubKeyBytes
                  pubKeyType := p.pubKeyType
                  paymentAddress := p.paymentAddress }
              let create :=
                match selectAuction st1 c.id buildHeight with
                | some a => (a, st1)
                | none =>
                  let a : Auction :=
                    { chainID := c.id
                      height := buildHeight
                      validatorAddress := p.address
                      validatorAllocation := FixedAllocation
                      validatorPaymentAddress := p.paymentAddress
                      mekatekPaymentAddress := ch.mekatekPaymentAddress
                      paymentDenom := ch.paymentDenom
                      registeredPower := registeredPowerOf vs (listValidators st1 c.id)
                      totalPower := vs.totalPower
                      finishedAt := none }
                  (a, upsertAuction st1 a)
              if create.1.finishedAt.isSome then (.error .finished, create.2)
              else if p.address ≠ create.1.validatorAddress then
                (.error (.other "mismatched validators"), create.2)
              else
                let auction' := { create.1 with finishedAt := some now }
                let st3 := upsertAuction create.2 auction'
                let allBids := listBids st3 c.id buildHeight
                match computeOrder c auction' allBids txs with
                | .error e => (.error e, st3)
                | .ok (winningBids, losingBids, remainingTxs) =>
                  let sel := selectTransactions c winningBids remainingTxs maxBytes maxGas
                  let st4 := updateBids st3 (losingBids ++ sel.2.1 ++ sel.2.2.1)
                  (.ok (flattenBundles sel.1,
                        toString ((sel.1.map (·.validatorPayment)).sum) ++ auction'.paymentDenom),
                   st4)

/-- `CoreService.Register`: load the challenge, delete it on every path
past the load (the Go `defer` runs whether or not signature verification
succeeds), verify the signature over the challenge sign-bytes, require the
validator in the current set, and upsert the validator. -/
def registerReq (c : ChainM) (st : StoreSt) (challengeID : Nat) (sig : List Nat) :
    Except Err ValidatorRec × StoreSt :=
  match c.latestHeight with
  | .error e => (.error (.other e), st)
  | .ok latestHeight =>
    match c.validatorSet latestHeight with
    | .error e => (.error (.other e), st)
    | .ok vs =>
      match selectChallenge st challengeID with
      | none => (.error .notFound, st)
      | some challenge =>
        let st1 := deleteChallenge st challengeID
        if ¬ c.verifySignature challenge.pubKeyType challenge.pubKeyBytes
            (.registerChallenge challenge.chainID challenge.challenge) sig then
          (.error .badSignature, st1)
        else
          match lookupA vs.set challenge.validatorAddress with
          | none => (.error (.other "validator not in set"), st1)
          | some vsv =>
            let v : ValidatorRec :=
              { chainID := challenge.chainID
                address := challenge.validatorAddress
                moniker := vsv.moniker
                pubKeyBytes := challenge.pubKeyBytes
                pubKeyType := challenge.pubKeyType
                paymentAddress := challenge.paymentAddress }
            (.ok v, upsertValidator st1 v)

/-- The state relation behind "a finished auction never reopens": every
auction row that is finished in `st` is still present and finished in
`st'`. -/
def finishedPreserved (st st' : StoreSt) : Prop :=
  ∀ cid h a, selectAuction st cid h = some a → a.finishedAt.isSome →
    ∃ a', selectAuction st' cid h = some a' ∧ a'.finishedAt.isSome

/-- The C3 claim's reading of "the sum of the byte counts of all
transactions in the returned block": each transaction contributes its
looked-up size, and one whose size lookup fails contributes nothing.
This definition follows the claim's words; compare `txContrib` /
`bidSize`, which follow the code (where a transaction with a failing gas
lookup also contributes zero bytes). -/
def specTxBytesSum (c : ChainM) (txs : List Tx) : Int :=
  (txs.map (fun tx => (getTxBytes c tx).getD 0)).sum

/-- The C3 claim's reading of "the sum of the gas amounts of all
transactions in the returned block" (see `specTxBytesSum`). -/
def specTxGasSum (c : ChainM) (txs : List Tx) : Int :=
  (txs.map (fun tx => (getTxGas c tx).getD 0)).sum

/-- The code's byte accounting over a transaction list: the sum of
`txContrib` sizes (a transaction counts only when both its size and gas
lookups succeed). -/
def codeTxBytesSum (c : ChainM) (txs : List Tx) : Int :=
  (txs.map (fun tx => (txContrib c tx).1)).sum

/-- The code's gas accounting over a transaction list (see
`codeTxBytesSum`). -/
def codeTxGasSum (c : ChainM) (txs : List Tx) : Int :=
  (txs.map (fun tx => (txContrib c tx).2)).sum

/-!
## Concrete instantiations used by the analyses
-/

/-- A concrete chain adapter: the byte string `[0]` decodes to a
transaction with two messages paying 96 to the validator address and 4 to
the mekatek address. -/
def c1Chain : ChainM where
  id := "testchain"
  latestHeight := .ok 100
  validatorSet := fun _ => .error "unused"
  predictProposer := fun _ _ => .error "unused"
  verifySignature := fun _ _ _ _ => true
  decodeTx := fun txb => if txb = [0] then some ⟨[0, 1], some 1, some 1⟩ else none
  encodeTx := fun _ => some [0]
  getPayment := fun m _ =>
    if m = 0 then some ("searcher1", "valaddr", 96)
    else if m = 1 then some ("searcher1", "mekaddr", 4)
    else none
  accountBalance := fun _ _ _ => .ok 1000000
  hashTx := fun txb => toString txb
  validatePaymentAddress := fun _ => true

/-- An auction with the fixed validator allocation 0.97. -/
def c1Auction : Auction where
  chainID := "testchain"
  height := 101
  validatorAddress := "val1"
  validatorAllocation := 97 / 100
  validatorPaymentAddress := "valaddr"
  mekatekPaymentAddress := "mekaddr"
  paymentDenom := "utest"
  registeredPower := 10
  totalPower := 10
  finishedAt := none

/-- A pending bid whose single transaction splits its 100-unit payment
96 / 4: both allocation differences are exactly 0.01. -/
def c1Bid : Bid where
  id := 1
  chainID := "testchain"
  height := 101
  kind := .block
  txs := [[0]]
  priority := 0
  mekatekPayment := 0
  validatorPayment := 0
  payments := []
  state := .pending

/-- A digit-string hash for fixtures: stands in for the SHA-256-based
`cryptoutil.HashTx`, injective on the small byte lists used here. -/
def fixtureHash (tx : Tx) : String :=
  ⟨tx.map (fun n => Char.ofNat (48 + n % 10))⟩

/-- The rational 97/100 in normalized constructor form (kernel-evaluable,
unlike the division expression). -/
def allocLit : Rat := ⟨97, 100, by decide, by decide⟩

/-- The fixture proposer, as a validator-set member. -/
def valXChainVal : ChainVal where
  address := "valX"
  moniker := "valx-moniker"
  paymentAddress := "valXpay"
  pubKeyType := "ed25519"
  pubKeyBytes := [1, 2]
  votingPower := 10

/-- A fixture chain adapter for the lifecycle endpoints: latest height
100, a single registered proposer, all signatures valid, no decodable
transactions. -/
def envChain : ChainM where
  id := "chainA"
  latestHeight := .ok 100
  validatorSet := fun h => .ok { height := h, set := [("valX", valXChainVal)], totalPower := 10 }
  predictProposer := fun _ _ => .ok valXChainVal
  verifySignature := fun _ _ _ _ => true
  decodeTx := fun _ => none
  encodeTx := fun _ => none
  getPayment := fun _ _ => none
  accountBalance := fun _ _ _ => .ok 0
  hashTx := fixtureHash
  validatePaymentAddress := fun _ => true

/-- The fixture chain row. -/
def chainARec : ChainRec where
  id := "chainA"
  mekatekPaymentAddress := "mekaddr"
  paymentDenom := "utest"

/-- The fixture proposer's store registration. -/
def valXRec : ValidatorRec where
  chainID := "chainA"
  address := "valX"
  moniker := "valx-moniker"
  pubKeyBytes := [1, 2]
  pubKeyType := "ed25519"
  paymentAddress := "valXpay"

/-- A fixture challenge (stored under ID 7). -/
def fixtureChallenge : ChallengeRec where
  id := 7
  chainID := "chainA"
  validatorAddress := "valX"
  pubKeyBytes := [1, 2]
  pubKeyType := "ed25519"
  paymentAddress := "valXpay2"
  challenge := [9, 9, 9]

/-- A base store: the chain and the proposer registered, one pending
challenge, no auctions. -/
def baseStore : StoreSt where
  chains := [("chainA", chainARec)]
  auctions := []
  bids := []
  validators := [(("chainA", "valX"), valXRec)]
  challenges := [(7, fixtureChallenge)]
  nextId := 10

/-- An open auction at height 101 owned by the fixture proposer. -/
def openAuction101 : Auction where
  chainID := "chainA"
  height := 101
  validatorAddress := "valX"
  validatorAllocation := allocLit
  validatorPaymentAddress := "valXpay"
  mekatekPaymentAddress := "mekaddr"
  paymentDenom := "utest"
  registeredPower := 10
  totalPower := 10
  finishedAt := none

/-- The same auction, finished at time 50. -/
def finishedAuction101 : Auction :=
  { openAuction101 with finishedAt := some 50 }

/-- A store holding the finished auction at height 101 (inside the current
height windows). -/
def c4Store : StoreSt :=
  { baseStore with auctions := [(("chainA", 101), finishedAuction101)] }

/-- A store holding a finished auction at height 5, far below the latest
height 100. -/
def c4OldStore : StoreSt :=
  { baseStore with auctions := [(("chainA", 5), { finishedAuction101 with height := 5 })] }

/-- C2 fixture chain: `[1]` decodes to a transaction with no payment
messages, one byte, one gas; re-encoding returns the same bytes. -/
def c2Chain : ChainM where
  id := "chainA"
  latestHeight := .ok 100
  validatorSet := fun h => .ok { height := h, set := [], totalPower := 0 }
  predictProposer := fun _ _ => .error "unused"
  verifySignature := fun _ _ _ _ => true
  decodeTx := fun txb =>
    if txb = [1] then some { messages := [], byteCount := some 1, gasAmount := some 1 }
    else none
  encodeTx := fun _ => some [1]
  getPayment := fun _ _ => none
  accountBalance := fun _ _ _ => .ok 0
  hashTx := fixtureHash
  validatePaymentAddress := fun _ => true

/-- C2 counterexample bid: already evaluated (pending), `Kind = block`, no
payments, and the same transaction `[1]` listed twice. -/
def c2Bid : Bid where
  id := 3
  chainID := "chainA"
  height := 101
  kind := .block
  txs := [[1], [1]]
  priority := 5
  mekatekPayment := 0
  validatorPayment := 0
  payments := []
  state := .pending

/-- A duplicate-free variant of `c2Bid` for the amended-claim witness. -/
def c2BidB : Bid :=
  { c2Bid with id := 4, txs := [[1]] }

/-- C3 fixture chain: `[2]` decodes with byte count 100 but a failing gas
lookup; `[1]` decodes with one byte, one gas. -/
def c3Chain : ChainM where
  id := "chainA"
  latestHeight := .ok 100
  validatorSet := fun h => .ok { height := h, set := [], totalPower := 0 }
  predictProposer := fun _ _ => .error "unused"
  verifySignature := fun _ _ _ _ => true
  decodeTx := fun txb =>
    if txb = [2] then some { messages := [], byteCount := some 100, gasAmount := none }
    else if txb = [1] then some { messages := [], byteCount := some 1, gasAmount := some 1 }
    else none
  encodeTx := fun t => if t.byteCount = some 100 then some [2] else some [1]
  getPayment := fun _ _ => none
  accountBalance := fun _ _ _ => .ok 0
  hashTx := fixtureHash
  validatePaymentAddress := fun _ => true

/-- C3 counterexample bid: already evaluated, carrying only the 100-byte
transaction whose gas lookup fails. -/
def c3Bid : Bid where
  id := 5
  chainID := "chainA"
  height := 101
  kind := .block
  txs := [[2]]
  priority := 3
  mekatekPayment := 0
  validatorPayment := 0
  payments := []
  state := .pending

/-- C9 fixture chain: `[1]` decodes to a transaction paying 97 to the
validator address and 3 to the mekatek address; `[9]` does not decode;
`[5]` decodes (byte count 7, gas 3) but its re-encoding fails. -/
def c9Chain : ChainM where
  id := "chainA"
  latestHeight := .ok 100
  validatorSet := fun h => .ok { height := h, set := [], totalPower := 0 }
  predictProposer := fun _ _ => .error "unused"
  verifySignature := fun _ _ _ _ => true
  decodeTx := fun txb =>
    if txb = [1] then some { messages := [0, 1], byteCount := some 5, gasAmount := some 7 }
    else if txb = [5] then some { messages := [], byteCount := some 7, gasAmount := some 3 }
    else none
  encodeTx := fun t => if t.byteCount = some 7 then none else some [1]
  getPayment := fun m _ =>
    if m = 0 then some ("searcher1", "valaddr", 97)
    else if m = 1 then some ("searcher1", "mekaddr", 3)
    else none
  accountBalance := fun _ _ _ => .ok 1000
  hashTx := fixtureHash
  validatePaymentAddress := fun _ => true

/-- C9 fixture bid: a decodable paying transaction plus the undecodable
`[9]`. -/
def c9Bid : Bid where
  id := 6
  chainID := "chainA"
  height := 101
  kind := .block
  txs := [[1], [9]]
  priority := 0
  mekatekPayment := 0
  validatorPayment := 0
  payments := []
  state := .unevaluated

/-!
## Theorems
-/

theorem lookupA_eraseA_self {K V : Type} [DecidableEq K] (l : List (K × V)) (k : K) :
    lookupA (eraseA l k) k = none := by
  induction l with
  | nil => rfl
  | cons p rest ih =>
    by_cases h : p.1 = k
    · simpa [eraseA, List.filter, h] using ih
    · simpa [eraseA, List.filter, h, lookupA] using ih

theorem lookupA_eraseA_ne {K V : Type} [DecidableEq K] (l : List (K × V)) (k k' : K)
    (h : k' ≠ k) : lookupA (eraseA l k) k' = lookupA l k' := by
  induction l with
  | nil => rfl
  | cons p rest ih =>
    by_cases hp : p.1 = k
    · simpa [eraseA, List.filter_cons, hp, lookupA, Ne.symm h] using ih
    · by_cases hp' : p.1 = k'
      · simp [eraseA, List.filter_cons, hp, lookupA, hp', h]
      · simpa [eraseA, List.filter_cons, hp, lookupA, hp'] using ih

theorem upsertValidator_challenges (s : StoreSt) (v : ValidatorRec) :
    (upsertValidator s v).challenges = s.challenges := by
  unfold upsertValidator
  split <;> rfl

/-- C6: once `Register` reaches its challenge lookup successfully, the
challenge is deleted on every exit path — whether or not signature
verification succeeds — and a second `Register` with the same challenge ID
returns `NotFound` and leaves the store unchanged. -/
theorem c6_register_deletes_once (c : ChainM) (st : StoreSt) (cid : Nat)
    (sig sig2 : List Nat) (ch : ChallengeRec) (L : Int) (vs : ValSet)
    (hlh : c.latestHeight = .ok L)
    (hvs : c.validatorSet L = .ok vs)
    (hch : selectChallenge st cid = some ch) :
    selectChallenge (registerReq c st cid sig).2 cid = none ∧
    (registerReq c (registerReq c st cid sig).2 cid sig2).1 = .error .notFound ∧
    (registerReq c (registerReq c st cid sig).2 cid sig2).2 = (registerReq c st cid sig).2 := by
  have h1 : selectChallenge (registerReq c st cid sig).2 cid = none := by
    unfold registerReq
    simp only [hlh, hvs, hch]
    split_ifs with hsig
    · cases hlk : lookupA vs.set ch.validatorAddress with
      | none => simp [hlk, selectChallenge, deleteChallenge, lookupA_eraseA_self]
      | some vsv =>
        simp [hlk, selectChallenge, upsertValidator_challenges, deleteChallenge,
          lookupA_eraseA_self]
    · simp [selectChallenge, deleteChallenge, lookupA_eraseA_self]
  have h2 : ∀ s2 : StoreSt, selectChallenge s2 cid = none →
      (registerReq c s2 cid sig2).1 = .error .notFound ∧ (registerReq c s2 cid sig2).2 = s2 := by
    intro s2 hnone
    unfold registerReq
    simp [hlh, hvs, hnone]
  exact ⟨h1, (h2 _ h1).1, (h2 _ h1).2⟩

theorem evaluateBid_err_kinds (c : ChainM) (a : Auction) (b : Bid) (e : Err)
    (he : evaluateBid c a b = .error e) :
    e = .invalidRequest ∨ e = .other "payment allocation" := by
  simp only [evaluateBid] at he
  split_ifs at he with h1 h2 <;>
    first
      | exact .inl (Except.error.inj he).symm
      | exact .inr (Except.error.inj he).symm
      | exact absurd he (by simp)

theorem evalPendings_err_kinds (c : ChainM) (a : Auction) (bids : List Bid) (e : Err)
    (he : evalPendings c a bids = .error e) :
    e = .invalidRequest ∨ e = .other "payment allocation" := by
  induction bids generalizing e with
  | nil => exact absurd he (by simp [evalPendings])
  | cons b rest ih =>
    unfold evalPendings at he
    split at he
    · rename_i heq
      cases he
      by_cases hb : b.state = .unevaluated
      · rw [if_pos hb] at heq
        exact evaluateBid_err_kinds c a b _ heq
      · rw [if_neg hb] at heq
        exact absurd heq (by simp)
    · split at he
      · rename_i heq2
        cases he
        exact ih _ heq2
      · exact absurd he (by simp)

theorem computeOrder_err_kinds (c : ChainM) (a : Auction) (bids : List Bid)
    (mempoolTxs : List Tx) (e : Err)
    (he : computeOrder c a bids mempoolTxs = .error e) :
    e = .invalidRequest ∨ e = .other "payment allocation" := by
  unfold computeOrder at he
  split at he
  · rename_i heq
    cases he
    exact evalPendings_err_kinds c a bids _ heq
  · exact absurd he (by simp)

/-- The height-window behaviour of `verifyAuction`: below the latest
height the request is too old, above `latest + offset` it is too new, and
inside the window neither of those errors can be produced. -/
theorem verifyAuction_window (c : ChainM) (st : StoreSt) (h off L : Int) (ch : ChainRec)
    (vs : ValSet)
    (hoff : 0 ≤ off)
    (hch : selectChain st c.id = some ch)
    (hlh : c.latestHeight = .ok L)
    (hvs : c.validatorSet L = .ok vs)
    (hvh : vs.height = L) :
    (h < L → (verifyAuction c h off st).1 = .error .tooOld) ∧
    (h > L + off → (verifyAuction c h off st).1 = .error .tooNew) ∧
    (L ≤ h → h ≤ L + off →
      (verifyAuction c h off st).1 ≠ .error .tooOld ∧
      (verifyAuction c h off st).1 ≠ .error .tooNew) := by
  refine ⟨?_, ?_, ?_⟩
  · intro hlt
    unfold verifyAuction
    simp only [hch, hlh, hvs, hvh]
    rw [if_neg (by simp), if_pos hlt]
  · intro hgt
    unfold verifyAuction
    simp only [hch, hlh, hvs, hvh]
    rw [if_neg (by simp), if_neg (by omega), if_pos hgt]
  · intro h1 h2
    unfold verifyAuction
    simp only [hch, hlh, hvs, hvh]
    rw [if_neg (by simp), if_neg (by omega), if_neg (by omega)]
    constructor <;>
      · cases hpp : c.predictProposer vs h with
        | error e => simp
        | ok p =>
          simp only []
          cases hsv : selectValidator st c.id p.address with
          | none => simp
          | some v =>
            simp only []
            cases hsa : selectAuction st c.id h with
            | some a0 =>
              simp only []
              split_ifs <;> simp
            | none =>
              simp only []
              split_ifs <;> simp

theorem auctionReq_error_iff (c : ChainM) (st : StoreSt) (h : Int) (e : Err) :
    (auctionReq c st h).1 = .error e ↔ (verifyAuction c h 10 st).1 = .error e := by
  unfold auctionReq
  rcases hva : verifyAuction c h 10 st with ⟨r, st'⟩
  cases r <;> simp

theorem bidReq_window_iff (c : ChainM) (st : StoreSt) (h : Int) (kind : String)
    (txs : List Tx) (e : Err) (he : e = .tooOld ∨ e = .tooNew ∨ e = .finished) :
    (bidReq c st h kind txs).1 = .error e ↔ (auctionReq c st h).1 = .error e := by
  unfold bidReq
  rcases har : auctionReq c st h with ⟨r, st'⟩
  cases r with
  | error e2 => simp
  | ok auction =>
    simp only []
    cases hev : evaluateBid c auction
        { id := 0, chainID := auction.chainID, height := auction.height,
          kind := parseBidKind kind, txs := txs, priority := 0, mekatekPayment := 0,
          validatorPayment := 0, payments := [], state := .pending } with
    | error e2 =>
      simp only []
      rcases evaluateBid_err_kinds _ _ _ _ hev with hk | hk <;>
        rcases he with he | he | he <;> simp [hk, he]
    | ok b2 => simp

theorem buildReq_window_iff (c : ChainM) (now : Int) (st : StoreSt) (h : Int)
    (va : String) (mB mG : Int) (txs : List Tx) (sig : List Nat) (e : Err)
    (he : e = .tooOld ∨ e = .tooNew ∨ e = .finished) :
    (buildReq c now st h va mB mG txs sig).1 = .error e ↔
      (verifyAuction c h 2 st).1 = .error e := by
  unfold buildReq
  rcases hva : verifyAuction c h 2 st with ⟨r, st'⟩
  cases r with
  | error e2 => simp
  | ok av =>
    obtain ⟨auction, proposer⟩ := av
    simp only []
    constructor
    · intro hx
      exfalso
      revert hx
      repeat' split
      all_goals
        first
          | (solve | simp)
          | (solve | rcases he with he | he | he <;> simp [he])
          | (solve
              | rename_i e2 heq
                rcases computeOrder_err_kinds _ _ _ _ _ heq with hk | hk <;>
                  rcases he with he | he | he <;> simp [hk, he])
          | (solve
              | rename_i e2 heq
                intro hx
                rcases computeOrder_err_kinds _ _ _ _ _ heq with hk | hk <;>
                  rcases he with he | he | he <;> simp [hk, he] at hx)
    · intro hx
      exact absurd hx (by simp)

theorem buildTail_not_window (c : ChainM) (a' : Auction) (bids : List Bid) (txs : List Tx)
    (st3 : StoreSt) (mB mG : Int) (denom : String) :
    ((match computeOrder c a' bids txs with
      | .error e => ((.error e : Except Err (List Tx × String)), st3)
      | .ok (winningBids, losingBids, remainingTxs) =>
        let sel := selectTransactions c winningBids remainingTxs mB mG
        let st4 := updateBids st3 (losingBids ++ sel.2.1 ++ sel.2.2.1)
        (.ok (flattenBundles sel.1,
              toString ((sel.1.map (fun b : TxBundle => b.validatorPayment)).sum) ++ denom),
         st4)).1
        ≠ Except.error Err.tooOld) ∧
    ((match computeOrder c a' bids txs with
      | .error e => ((.error e : Except Err (List Tx × String)), st3)
      | .ok (winningBids, losingBids, remainingTxs) =>
        let sel := selectTransactions c winningBids remainingTxs mB mG
        let st4 := updateBids st3 (losingBids ++ sel.2.1 ++ sel.2.2.1)
        (.ok (flattenBundles sel.1,
              toString ((sel.1.map (fun b : TxBundle => b.validatorPayment)).sum) ++ denom),
         st4)).1
        ≠ Except.error Err.tooNew) := by
  cases hco : computeOrder c a' bids txs with
  | error e =>
    rcases computeOrder_err_kinds _ _ _ _ _ hco with hk | hk <;> simp [hk]
  | ok w =>
    obtain ⟨w1, w2, w3⟩ := w
    simp

theorem buildV1_window (c : ChainM) (now : Int) (st : StoreSt) (h : Int) (va : String)
    (mB mG : Int) (txs : List Tx) (sig : List Nat) (L : Int) (ch : ChainRec) (vs : ValSet)
    (hch : selectChain st c.id = some ch)
    (hlh : c.latestHeight = .ok L)
    (hvs : c.validatorSet L = .ok vs)
    (hvh : vs.height = L) :
    (h < L → (buildV1Req c now st h va mB mG txs sig).1 = .error .tooOld) ∧
    (h > L + 2 → (buildV1Req c now st h va mB mG txs sig).1 = .error .tooNew) ∧
    (L ≤ h → h ≤ L + 2 →
      (buildV1Req c now st h va mB mG txs sig).1 ≠ .error .tooOld ∧
      (buildV1Req c now st h va mB mG txs sig).1 ≠ .error .tooNew) := by
  refine ⟨?_, ?_, ?_⟩
  · intro hlt
    unfold buildV1Req
    simp only [hch, hlh, hvs, hvh]
    rw [if_neg (by simp), if_pos hlt]
  · intro hgt
    unfold buildV1Req
    simp only [hch, hlh, hvs, hvh]
    rw [if_neg (by simp), if_neg (by omega), if_pos hgt]
  · intro h1 h2
    unfold buildV1Req
    simp only [hch, hlh, hvs, hvh]
    rw [if_neg (by simp), if_neg (by omega), if_neg (by omega)]
    constructor <;>
      · cases hpp : c.predictProposer vs h with
        | error e => simp
        | ok p =>
          simp only []
          split_ifs <;> try (solve | simp)
          all_goals try simp only []
          all_goals
            first
              | exact (buildTail_not_window c _ _ txs _ mB mG _).1
              | exact (buildTail_not_window c _ _ txs _ mB mG _).2

/-- C5: with the chain present and a consistent latest height `L`, a
request at height `h` fails `AuctionTooOld` when `h < L` and
`AuctionTooNew` when `h > L + offset`, where the offset is 10 for
`Auction`/`Bid` and 2 for `Build`/`BuildV1`; heights with
`L ≤ h ≤ L + offset` pass the window check (neither window error can be
produced). -/
theorem c5_height_window (c : ChainM) (st : StoreSt) (h L now mB mG : Int)
    (kind va : String) (txs : List Tx) (sig : List Nat) (ch : ChainRec) (vs : ValSet)
    (hch : selectChain st c.id = some ch)
    (hlh : c.latestHeight = .ok L)
    (hvs : c.validatorSet L = .ok vs)
    (hvh : vs.height = L) :
    (h < L →
      (auctionReq c st h).1 = .error .tooOld ∧
      (bidReq c st h kind txs).1 = .error .tooOld ∧
      (buildReq c now st h va mB mG txs sig).1 = .error .tooOld ∧
      (buildV1Req c now st h va mB mG txs sig).1 = .error .tooOld) ∧
    (h > L + 10 →
      (auctionReq c st h).1 = .error .tooNew ∧
      (bidReq c st h kind txs).1 = .error .tooNew) ∧
    (h > L + 2 →
      (buildReq c now st h va mB mG txs sig).1 = .error .tooNew ∧
      (buildV1Req c now st h va mB mG txs sig).1 = .error .tooNew) ∧
    (L ≤ h → h ≤ L + 10 →
      (auctionReq c st h).1 ≠ .error .tooOld ∧ (auctionReq c st h).1 ≠ .error .tooNew ∧
      (bidReq c st h kind txs).1 ≠ .error .tooOld ∧
      (bidReq c st h kind txs).1 ≠ .error .tooNew) ∧
    (L ≤ h → h ≤ L + 2 →
      (buildReq c now st h va mB mG txs sig).1 ≠ .error .tooOld ∧
      (buildReq c now st h va mB mG txs sig).1 ≠ .error .tooNew ∧
      (buildV1Req c now st h va mB mG txs sig).1 ≠ .error .tooOld ∧
      (buildV1Req c now st h va mB mG txs sig).1 ≠ .error .tooNew) := by
  have hw10 := verifyAuction_window c st h 10 L ch vs (by omega) hch hlh hvs hvh
  have hw2 := verifyAuction_window c st h 2 L ch vs (by omega) hch hlh hvs hvh
  have hb1 := buildV1_window c now st h va mB mG txs sig L ch vs hch hlh hvs hvh
  refine ⟨?_, ?_, ?_, ?_, ?_⟩
  · intro hlt
    exact ⟨(auctionReq_error_iff c st h .tooOld).2 (hw10.1 hlt),
      (bidReq_window_iff c st h kind txs .tooOld (.inl rfl)).2
        ((auctionReq_error_iff c st h .tooOld).2 (hw10.1 hlt)),
      (buildReq_window_iff c now st h va mB mG txs sig .tooOld (.inl rfl)).2 (hw2.1 hlt),
      hb1.1 hlt⟩
  · intro hgt
    exact ⟨(auctionReq_error_iff c st h .tooNew).2 (hw10.2.1 hgt),
      (bidReq_window_iff c st h kind txs .tooNew (.inr (.inl rfl))).2
        ((auctionReq_error_iff c st h .tooNew).2 (hw10.2.1 hgt))⟩
  · intro hgt
    exact ⟨(buildReq_window_iff c now st h va mB mG txs sig .tooNew (.inr (.inl rfl))).2
        (hw2.2.1 hgt),
      hb1.2.1 hgt⟩
  · intro h1 h2
    have hne := hw10.2.2 h1 h2
    refine ⟨fun hx => hne.1 ((auctionReq_error_iff c st h .tooOld).1 hx),
      fun hx => hne.2 ((auctionReq_error_iff c st h .tooNew).1 hx), ?_, ?_⟩
    · exact fun hx => hne.1 ((auctionReq_error_iff c st h .tooOld).1
        ((bidReq_window_iff c st h kind txs .tooOld (.inl rfl)).1 hx))
    · exact fun hx => hne.2 ((auctionReq_error_iff c st h .tooNew).1
        ((bidReq_window_iff c st h kind txs .tooNew (.inr (.inl rfl))).1 hx))
  · intro h1 h2
    have hne := hw2.2.2 h1 h2
    have hb := hb1.2.2 h1 h2
    exact ⟨fun hx => hne.1
        ((buildReq_window_iff c now st h va mB mG txs sig .tooOld (.inl rfl)).1 hx),
      fun hx => hne.2
        ((buildReq_window_iff c now st h va mB mG txs sig .tooNew (.inr (.inl rfl))).1 hx),
      hb.1, hb.2⟩

theorem lookupA_append {K V : Type} [DecidableEq K] (l1 l2 : List (K × V)) (k : K) :
    lookupA (l1 ++ l2) k =
      match lookupA l1 k with
      | some v => some v
      | none => lookupA l2 k := by
  induction l1 with
  | nil => rfl
  | cons p rest ih =>
    by_cases hp : p.1 = k
    · simp [lookupA, hp]
    · simpa [lookupA, hp] using ih

theorem lookupA_cons {K V : Type} [DecidableEq K] (k' : K) (v : V) (rest : List (K × V))
    (k : K) : lookupA ((k', v) :: rest) k = if k' = k then some v else lookupA rest k := rfl

theorem lookupA_map_const {K V : Type} [DecidableEq K] (l : List (K × V)) (key : K)
    (w : V) (k : K) :
    lookupA (l.map (fun p => if p.1 = key then (p.1, w) else p)) k =
      if k = key then (lookupA l k).map (fun _ => w) else lookupA l k := by
  induction l with
  | nil => simp [lookupA]
  | cons p rest ih =>
    rw [List.map_cons]
    by_cases hp : p.1 = key
    · rw [if_pos hp, lookupA_cons, lookupA_cons]
      by_cases hk : p.1 = k
      · have hkey : k = key := by rw [← hk, hp]
        rw [if_pos hk, if_pos hkey, if_pos hk]
        simp
      · rw [if_neg hk, if_neg hk]
        exact ih
    · rw [if_neg hp, lookupA_cons, lookupA_cons]
      by_cases hk : p.1 = k
      · have hkey : ¬ k = key := fun he => hp (by rw [hk, he])
        rw [if_neg hkey, if_pos hk, if_pos hk]
      · rw [if_neg hk, if_neg hk]
        exact ih

theorem finishedPreserved_refl (st : StoreSt) : finishedPreserved st st :=
  fun _ _ a hsel hfin => ⟨a, hsel, hfin⟩

theorem finishedPreserved_trans {st1 st2 st3 : StoreSt}
    (h12 : finishedPreserved st1 st2) (h23 : finishedPreserved st2 st3) :
    finishedPreserved st1 st3 := by
  intro cid h a hsel hfin
  obtain ⟨a2, hsel2, hfin2⟩ := h12 cid h a hsel hfin
  exact h23 cid h a2 hsel2 hfin2

theorem finishedPreserved_of_auctions_eq (st st' : StoreSt)
    (h : st'.auctions = st.auctions) : finishedPreserved st st' := by
  intro cid hh a hsel hfin
  refine ⟨a, ?_, hfin⟩
  unfold selectAuction at hsel ⊢
  rw [h]
  exact hsel

/-- `UpsertAuction` preserves finishedness of every auction row, provided
the upserted value is itself finished or its key is absent (the only two
ways the service ever calls it). -/
theorem upsertAuction_preserves (st : StoreSt) (a : Auction)
    (hcase : a.finishedAt.isSome = true ∨ selectAuction st a.chainID a.height = none) :
    finishedPreserved st (upsertAuction st a) := by
  intro cid h a0 hsel hfin
  unfold upsertAuction
  cases hex : lookupA st.auctions (a.chainID, a.height) with
  | some existing =>
    simp only [selectAuction]
    rw [lookupA_map_const]
    by_cases hk : (cid, h) = (a.chainID, a.height)
    · rw [if_pos hk]
      unfold selectAuction at hsel
      rw [hk] at hsel
      rw [show (cid, h) = (a.chainID, a.height) from hk, hsel]
      cases hcase with
      | inl hf => exact ⟨_, rfl, hf⟩
      | inr hnone =>
        unfold selectAuction at hnone
        rw [hnone] at hex
        exact absurd hex (by simp)
    · rw [if_neg hk]
      exact ⟨a0, hsel, hfin⟩
  | none =>
    simp only [selectAuction]
    rw [lookupA_append]
    unfold selectAuction at hsel
    by_cases hk : (cid, h) = (a.chainID, a.height)
    · rw [hk] at hsel
      rw [hsel] at hex
      exact absurd hex (by simp)
    · rw [hsel]
      exact ⟨a0, rfl, hfin⟩

theorem verifyAuction_preserves (c : ChainM) (h off : Int) (st : StoreSt) :
    finishedPreserved st (verifyAuction c h off st).2 := by
  unfold verifyAuction
  cases selectChain st c.id with
  | none => exact finishedPreserved_refl st
  | some ch =>
    simp only []
    cases c.latestHeight with
    | error e => exact finishedPreserved_refl st
    | ok L =>
      simp only []
      cases c.validatorSet L with
      | error e => exact finishedPreserved_refl st
      | ok vs =>
        simp only []
        split_ifs with h1 h2 h3 <;> try exact finishedPreserved_refl st
        cases c.predictProposer vs h with
        | error e => exact finishedPreserved_refl st
        | ok p =>
          simp only []
          cases selectValidator st c.id p.address with
          | none => exact finishedPreserved_refl st
          | some v =>
            simp only []
            cases hsa : selectAuction st c.id h with
            | some a0 =>
              simp only []
              split_ifs <;> exact finishedPreserved_refl st
            | none =>
              simp only []
              split_ifs <;> exact upsertAuction_preserves st _ (Or.inr hsa)

theorem auctionReq_preserves (c : ChainM) (st : StoreSt) (h : Int) :
    finishedPreserved st (auctionReq c st h).2 := by
  unfold auctionReq
  rcases hva : verifyAuction c h 10 st with ⟨r, st'⟩
  have hp : finishedPreserved st st' := by
    have := verifyAuction_preserves c h 10 st
    rwa [hva] at this
  cases r <;> exact hp

theorem bidReq_preserves (c : ChainM) (st : StoreSt) (h : Int) (kind : String)
    (txs : List Tx) : finishedPreserved st (bidReq c st h kind txs).2 := by
  unfold bidReq
  rcases har : auctionReq c st h with ⟨r, st'⟩
  have hp : finishedPreserved st st' := by
    have := auctionReq_preserves c st h
    rwa [har] at this
  cases r with
  | error e => exact hp
  | ok auction =>
    simp only []
    split
    · exact hp
    · exact finishedPreserved_trans hp (finishedPreserved_of_auctions_eq _ _ rfl)

theorem buildReq_preserves (c : ChainM) (now : Int) (st : StoreSt) (h : Int)
    (va : String) (mB mG : Int) (txs : List Tx) (sig : List Nat) :
    finishedPreserved st (buildReq c now st h va mB mG txs sig).2 := by
  unfold buildReq
  rcases hva : verifyAuction c h 2 st with ⟨r, st'⟩
  have hp1 : finishedPreserved st st' := by
    have := verifyAuction_preserves c h 2 st
    rwa [hva] at this
  cases r with
  | error e => exact hp1
  | ok av =>
    obtain ⟨auction, proposer⟩ := av
    simp only []
    have hp2 : finishedPreserved st
        (upsertAuction st' { auction with finishedAt := some now }) :=
      finishedPreserved_trans hp1 (upsertAuction_preserves st' _ (Or.inl rfl))
    repeat' split
    all_goals
      first
        | exact hp1
        | exact hp2
        | exact finishedPreserved_trans hp2 (finishedPreserved_of_auctions_eq _ _ rfl)

theorem upsertValidator_auctions (st : StoreSt) (v : ValidatorRec) :
    (upsertValidator st v).auctions = st.auctions := by
  unfold upsertValidator
  split <;> rfl

theorem buildV1Req_preserves (c : ChainM) (now : Int) (st : StoreSt) (h : Int)
    (va : String) (mB mG : Int) (txs : List Tx) (sig : List Nat) :
    finishedPreserved st (buildV1Req c now st h va mB mG txs sig).2 := by
  unfold buildV1Req
  cases selectChain st c.id with
  | none => exact finishedPreserved_refl st
  | some ch =>
    simp only []
    cases c.latestHeight with
    | error e => exact finishedPreserved_refl st
    | ok L =>
      simp only []
      cases c.validatorSet L with
      | error e => exact finishedPreserved_refl st
      | ok vs =>
        simp only []
        split
        · exact finishedPreserved_refl st
        split
        · exact finishedPreserved_refl st
        split
        · exact finishedPreserved_refl st
        cases c.predictProposer vs h with
        | error e => exact finishedPreserved_refl st
        | ok p =>
          simp only []
          split
          · exact finishedPreserved_refl st
          split
          · exact finishedPreserved_refl st
          have hp1 : finishedPreserved st (upsertValidator st
              { chainID := c.id, address := p.address, moniker := p.moniker,
                pubKeyBytes := p.pubKeyBytes, pubKeyType := p.pubKeyType,
                paymentAddress := p.paymentAddress }) :=
            finishedPreserved_of_auctions_eq _ _ (upsertValidator_auctions st _)
          try simp only []
          generalize upsertValidator st
              { chainID := c.id, address := p.address, moniker := p.moniker,
                pubKeyBytes := p.pubKeyBytes, pubKeyType := p.pubKeyType,
                paymentAddress := p.paymentAddress } = st1 at hp1 ⊢
          cases hsa : selectAuction st1 c.id h with
          | some a0 =>
            simp only []
            split
            · exact hp1
            split
            · exact hp1
            have hp3 : finishedPreserved st
                (upsertAuction st1 { a0 with finishedAt := some now }) :=
              finishedPreserved_trans hp1 (upsertAuction_preserves st1 _ (Or.inl rfl))
            split
            · exact hp3
            · exact finishedPreserved_trans hp3 (finishedPreserved_of_auctions_eq _ _ rfl)
          | none =>
            simp only []
            have hp2 : finishedPreserved st (upsertAuction st1
                { chainID := c.id, height := h, validatorAddress := p.address,
                  validatorAllocation := FixedAllocation,
                  validatorPaymentAddress := p.paymentAddress,
                  mekatekPaymentAddress := ch.mekatekPaymentAddress,
                  paymentDenom := ch.paymentDenom,
                  registeredPower := registeredPowerOf vs (listValidators st1 c.id),
                  totalPower := vs.totalPower, finishedAt := none }) :=
              finishedPreserved_trans hp1 (upsertAuction_preserves st1 _ (Or.inr hsa))
            split
            · exact hp2
            split
            · exact hp2
            have hp3 : finishedPreserved st (upsertAuction (upsertAuction st1
                { chainID := c.id, height := h, validatorAddress := p.address,
                  validatorAllocation := FixedAllocation,
                  validatorPaymentAddress := p.paymentAddress,
                  mekatekPaymentAddress := ch.mekatekPaymentAddress,
                  paymentDenom := ch.paymentDenom,
                  registeredPower := registeredPowerOf vs (listValidators st1 c.id),
                  totalPower := vs.totalPower, finishedAt := none })
                { chainID := c.id, height := h, validatorAddress := p.address,
                  validatorAllocation := FixedAllocation,
                  validatorPaymentAddress := p.paymentAddress,
                  mekatekPaymentAddress := ch.mekatekPaymentAddress,
                  paymentDenom := ch.paymentDenom,
                  registeredPower := registeredPowerOf vs (listValidators st1 c.id),
                  totalPower := vs.totalPower, finishedAt := some now }) :=
              finishedPreserved_trans hp2 (upsertAuction_preserves _ _ (Or.inl rfl))
            split
            · exact hp3
            · exact finishedPreserved_trans hp3 (finishedPreserved_of_auctions_eq _ _ rfl)

theorem selectAuction_upsertValidator (s : StoreSt) (v : ValidatorRec) (cid : String)
    (h : Int) : selectAuction (upsertValidator s v) cid h = selectAuction s cid h := by
  unfold selectAuction
  rw [upsertValidator_auctions]

theorem verifyAuction_finished_not_ok (c : ChainM) (h off : Int) (st : StoreSt)
    (a : Auction) (ha : selectAuction st c.id h = some a)
    (hfin : a.finishedAt.isSome = true) :
    ∀ x, (verifyAuction c h off st).1 ≠ .ok x := by
  intro x hx
  unfold verifyAuction at hx
  repeat' split at hx
  all_goals simp_all

theorem verifyAuction_finished (c : ChainM) (h off L : Int) (st : StoreSt) (a : Auction)
    (ch : ChainRec) (vs : ValSet) (p : ChainVal) (v : ValidatorRec)
    (hch : selectChain st c.id = some ch) (hlh : c.latestHeight = .ok L)
    (hvs : c.validatorSet L = .ok vs) (hvh : vs.height = L)
    (h1 : L ≤ h) (h2 : h ≤ L + off)
    (hpp : c.predictProposer vs h = .ok p)
    (hsv : selectValidator st c.id p.address = some v)
    (ha : selectAuction st c.id h = some a) (hfin : a.finishedAt.isSome = true) :
    (verifyAuction c h off st).1 = .error .finished := by
  unfold verifyAuction
  simp only [hch, hlh, hvs, hvh, hpp, hsv, ha]
  rw [if_neg (by simp), if_neg (by omega), if_neg (by omega)]
  simp [hfin]

theorem buildV1_finished_not_ok (c : ChainM) (now : Int) (st : StoreSt) (h : Int)
    (va : String) (mB mG : Int) (txs : List Tx) (sig : List Nat) (a : Auction)
    (ha : selectAuction st c.id h = some a) (hfin : a.finishedAt.isSome = true) :
    ∀ y, (buildV1Req c now st h va mB mG txs sig).1 ≠ .ok y := by
  intro y hy
  unfold buildV1Req at hy
  repeat' split at hy
  all_goals simp_all [selectAuction_upsertValidator]

theorem buildV1_finished (c : ChainM) (now : Int) (st : StoreSt) (h : Int) (va : String)
    (mB mG : Int) (txs : List Tx) (sig : List Nat) (L : Int) (ch : ChainRec)
    (vs : ValSet) (p : ChainVal) (a : Auction)
    (hch : selectChain st c.id = some ch) (hlh : c.latestHeight = .ok L)
    (hvs : c.validatorSet L = .ok vs) (hvh : vs.height = L)
    (h1 : L ≤ h) (h2 : h ≤ L + 2)
    (hpp : c.predictProposer vs h = .ok p)
    (haddr : p.address = va)
    (hsig : c.verifySignature p.pubKeyType p.pubKeyBytes
      (.buildBlock c.id h va mB mG txs) sig = true)
    (ha : selectAuction st c.id h = some a) (hfin : a.finishedAt.isSome = true) :
    (buildV1Req c now st h va mB mG txs sig).1 = .error .finished := by
  unfold buildV1Req
  simp only [hch, hlh, hvs, hvh, hpp]
  rw [if_neg (by simp), if_neg (by omega), if_neg (by omega),
    if_neg (by simp [haddr]), if_neg (by simp [hsig])]
  simp only [selectAuction_upsertValidator, ha]
  simp [hfin]

/-- C4 (amended): once an auction's `FinishedAt` is set, no subsequent
`Auction`, `Bid`, `Build` or `BuildV1` request for the same (chain,
height) can succeed; it fails with `AuctionFinished` whenever the
preceding checks (chain present, height window, proposer prediction,
registration for the v0 path, caller/signature for the v1 path) pass —
an out-of-window request fails with the window error instead — and no
request of any endpoint ever resets `FinishedAt`: finishedness of every
auction row is preserved by every request. -/
theorem c4_finished_never_reopens (c : ChainM) (st : StoreSt) (h L now mB mG : Int)
    (kind va : String) (txs : List Tx) (sig : List Nat) (a : Auction)
    (ha : selectAuction st c.id h = some a) (hfin : a.finishedAt.isSome = true) :
    ((∀ x, (auctionReq c st h).1 ≠ .ok x) ∧
     (∀ b, (bidReq c st h kind txs).1 ≠ .ok b) ∧
     (∀ y, (buildReq c now st h va mB mG txs sig).1 ≠ .ok y) ∧
     (∀ y, (buildV1Req c now st h va mB mG txs sig).1 ≠ .ok y)) ∧
    (∀ (ch : ChainRec) (vs : ValSet) (p : ChainVal) (v : ValidatorRec),
      selectChain st c.id = some ch → c.latestHeight = .ok L →
      c.validatorSet L = .ok vs → vs.height = L →
      c.predictProposer vs h = .ok p →
      ((L ≤ h → h ≤ L + 10 → selectValidator st c.id p.address = some v →
        (auctionReq c st h).1 = .error .finished ∧
        (bidReq c st h kind txs).1 = .error .finished) ∧
       (L ≤ h → h ≤ L + 2 → selectValidator st c.id p.address = some v →
        (buildReq c now st h va mB mG txs sig).1 = .error .finished) ∧
       (L ≤ h → h ≤ L + 2 → p.address = va →
        c.verifySignature p.pubKeyType p.pubKeyBytes
          (.buildBlock c.id h va mB mG txs) sig = true →
        (buildV1Req c now st h va mB mG txs sig).1 = .error .finished))) ∧
    ((∀ (st2 : StoreSt) (h2 : Int), finishedPreserved st2 (auctionReq c st2 h2).2) ∧
     (∀ (st2 : StoreSt) (h2 : Int) (kind2 : String) (txs2 : List Tx),
        finishedPreserved st2 (bidReq c st2 h2 kind2 txs2).2) ∧
     (∀ (st2 : StoreSt) (now2 h2 mB2 mG2 : Int) (va2 : String) (txs2 : List Tx)
        (sig2 : List Nat),
        finishedPreserved st2 (buildReq c now2 st2 h2 va2 mB2 mG2 txs2 sig2).2) ∧
     (∀ (st2 : StoreSt) (now2 h2 mB2 mG2 : Int) (va2 : String) (txs2 : List Tx)
        (sig2 : List Nat),
        finishedPreserved st2 (buildV1Req c now2 st2 h2 va2 mB2 mG2 txs2 sig2).2)) := by
  refine ⟨⟨?_, ?_, ?_, ?_⟩, ?_, ?_, ?_, ?_, ?_⟩
  · intro x hx
    unfold auctionReq at hx
    rcases hva : verifyAuction c h 10 st with ⟨r, st'⟩
    rw [hva] at hx
    cases r with
    | error e => exact absurd hx (by simp)
    | ok av =>
      have := verifyAuction_finished_not_ok c h 10 st a ha hfin av
      rw [hva] at this
      exact this rfl
  · intro b hb
    unfold bidReq at hb
    rcases har : auctionReq c st h with ⟨r, st'⟩
    rw [har] at hb
    cases r with
    | error e => exact absurd hb (by simp)
    | ok auction =>
      unfold auctionReq at har
      rcases hva : verifyAuction c h 10 st with ⟨r2, st2⟩
      rw [hva] at har
      cases r2 with
      | error e => exact absurd har (by simp)
      | ok av =>
        have := verifyAuction_finished_not_ok c h 10 st a ha hfin av
        rw [hva] at this
        exact this rfl
  · intro y hy
    unfold buildReq at hy
    rcases hva : verifyAuction c h 2 st with ⟨r, st'⟩
    rw [hva] at hy
    cases r with
    | error e => exact absurd hy (by simp)
    | ok av =>
      have := verifyAuction_finished_not_ok c h 2 st a ha hfin av
      rw [hva] at this
      exact this rfl
  · exact buildV1_finished_not_ok c now st h va mB mG txs sig a ha hfin
  · intro ch vs p v hch hlh hvs hvh hpp
    refine ⟨?_, ?_, ?_⟩
    · intro h1 h2 hsv
      have hva := verifyAuction_finished c h 10 L st a ch vs p v hch hlh hvs hvh h1
        h2 hpp hsv ha hfin
      refine ⟨(auctionReq_error_iff c st h .finished).2 hva, ?_⟩
      exact (bidReq_window_iff c st h kind txs .finished (.inr (.inr rfl))).2
        ((auctionReq_error_iff c st h .finished).2 hva)
    · intro h1 h2 hsv
      exact (buildReq_window_iff c now st h va mB mG txs sig .finished
          (.inr (.inr rfl))).2
        (verifyAuction_finished c h 2 L st a ch vs p v hch hlh hvs hvh h1 h2 hpp
          hsv ha hfin)
    · intro h1 h2 haddr hsig
      exact buildV1_finished c now st h va mB mG txs sig L ch vs p a hch hlh hvs
        hvh h1 h2 hpp haddr hsig ha hfin
  · intro st2 h2
    exact auctionReq_preserves c st2 h2
  · intro st2 h2 kind2 txs2
    exact bidReq_preserves c st2 h2 kind2 txs2
  · intro st2 now2 h2 mB2 mG2 va2 txs2 sig2
    exact buildReq_preserves c now2 st2 h2 va2 mB2 mG2 txs2 sig2
  · intro st2 now2 h2 mB2 mG2 va2 txs2 sig2
    exact buildV1Req_preserves c now2 st2 h2 va2 mB2 mG2 txs2 sig2

/-- C4 counterexample: with the height-5 auction finished and latest
height 100, a subsequent `Build` for (chainA, 5) fails with
`AuctionTooOld`, not `AuctionFinished` — the window check runs before the
finished check, so the claim "fails with AuctionFinished" does not hold
for every subsequent request. -/
theorem c4_counterexample :
    selectAuction c4OldStore "chainA" 5 = some { finishedAuction101 with height := 5 } ∧
    ({ finishedAuction101 with height := 5 } : Auction).finishedAt.isSome = true ∧
    (buildReq envChain 1 c4OldStore 5 "valX" (-1) (-1) [] []).1 = .error .tooOld ∧
    Err.tooOld ≠ Err.finished := by
  refine ⟨rfl, rfl, ?_, by decide⟩
  exact (buildReq_window_iff envChain 1 c4OldStore 5 "valX" (-1) (-1) [] [] .tooOld
      (.inl rfl)).2
    ((verifyAuction_window envChain c4OldStore 5 2 100 chainARec
        ⟨100, [("valX", valXChainVal)], 10⟩ (by omega) rfl rfl rfl rfl).1 (by omega))

/-- Witness for C4 at the fixture store: the finished auction at height
101 makes `Auction` and `BuildV1` fail with `AuctionFinished`, and a
`Build` request preserves the finished row. -/
theorem c4_witness :
    (auctionReq envChain c4Store 101).1 = .error .finished ∧
    (buildV1Req envChain 1 c4Store 101 "valX" (-1) (-1) [] []).1 = .error .finished ∧
    (∃ a1, selectAuction (buildReq envChain 1 c4Store 101 "valX" (-1) (-1) [] []).2
        "chainA" 101 = some a1 ∧ a1.finishedAt.isSome = true) := by
  have h := c4_finished_never_reopens envChain c4Store 101 100 1 (-1) (-1) "block"
    "valX" [] [] finishedAuction101 rfl rfl
  have hb := h.2.1 chainARec ⟨100, [("valX", valXChainVal)], 10⟩ valXChainVal valXRec
    rfl rfl rfl rfl rfl
  exact ⟨(hb.1 (by omega) (by omega) rfl).1,
    hb.2.2 (by omega) (by omega) rfl rfl,
    h.2.2.2.2.1 c4Store 1 101 (-1) (-1) "valX" [] [] "chainA" 101 finishedAuction101
      rfl rfl⟩

theorem flattenBundles_append (x y : List TxBundle) :
    flattenBundles (x ++ y) = flattenBundles x ++ flattenBundles y := by
  simp [flattenBundles]

theorem codeTxBytesSum_append (c : ChainM) (x y : List Tx) :
    codeTxBytesSum c (x ++ y) = codeTxBytesSum c x + codeTxBytesSum c y := by
  simp [codeTxBytesSum]

theorem codeTxGasSum_append (c : ChainM) (x y : List Tx) :
    codeTxGasSum c (x ++ y) = codeTxGasSum c x + codeTxGasSum c y := by
  simp [codeTxGasSum]

theorem bidSize_go (c : ChainM) (txs : List Tx) (b g : Int) :
    txs.foldl (fun acc tx => (acc.1 + (txContrib c tx).1, acc.2 + (txContrib c tx).2)) (b, g)
      = (b + codeTxBytesSum c txs, g + codeTxGasSum c txs) := by
  induction txs generalizing b g with
  | nil => simp [codeTxBytesSum, codeTxGasSum]
  | cons t rest ih =>
    rw [List.foldl_cons, ih]
    simp only [codeTxBytesSum, codeTxGasSum, List.map_cons, List.sum_cons]
    simp [add_assoc]

theorem bidSize_eq (c : ChainM) (txs : List Tx) :
    bidSize c txs = (codeTxBytesSum c txs, codeTxGasSum c txs) := by
  unfold bidSize
  rw [bidSize_go]
  simp

/-- Invariant of the packing loops: the running totals equal the
code-accounted sums over the flattened bundles and respect the effective
limits. -/
theorem selBids_inv (c : ChainM) (mB mG : Int) (Wl : List Bid) :
    ∀ acc : SelAcc,
      acc.totalBytes = codeTxBytesSum c (flattenBundles acc.bundles) →
      acc.totalGas = codeTxGasSum c (flattenBundles acc.bundles) →
      (0 ≤ mB → acc.totalBytes ≤ mB) → (0 ≤ mG → acc.totalGas ≤ mG) →
      ((Wl.foldl (selectBidStep c mB mG) acc).totalBytes
          = codeTxBytesSum c (flattenBundles (Wl.foldl (selectBidStep c mB mG) acc).bundles) ∧
       (Wl.foldl (selectBidStep c mB mG) acc).totalGas
          = codeTxGasSum c (flattenBundles (Wl.foldl (selectBidStep c mB mG) acc).bundles) ∧
       (0 ≤ mB → (Wl.foldl (selectBidStep c mB mG) acc).totalBytes ≤ mB) ∧
       (0 ≤ mG → (Wl.foldl (selectBidStep c mB mG) acc).totalGas ≤ mG)) := by
  induction Wl with
  | nil => exact fun acc h1 h2 h3 h4 => ⟨h1, h2, h3, h4⟩
  | cons eb rest ih =>
    intro acc h1 h2 h3 h4
    rw [List.foldl_cons]
    unfold selectBidStep
    simp only []
    split_ifs with hover
    · exact ih _ h1 h2 h3 h4
    · push_neg at hover
      refine ih _ ?_ ?_ ?_ ?_
      · show acc.totalBytes + (bidSize c eb.txs).1 = codeTxBytesSum c (flattenBundles
          (acc.bundles ++
            [⟨"bid " ++ toString eb.id, eb.txs, eb.validatorPayment, eb.mekatekPayment⟩]))
        rw [flattenBundles_append, codeTxBytesSum_append, ← h1, bidSize_eq]
        simp [flattenBundles, codeTxBytesSum]
      · show acc.totalGas + (bidSize c eb.txs).2 = codeTxGasSum c (flattenBundles
          (acc.bundles ++
            [⟨"bid " ++ toString eb.id, eb.txs, eb.validatorPayment, eb.mekatekPayment⟩]))
        rw [flattenBundles_append, codeTxGasSum_append, ← h2, bidSize_eq]
        simp [flattenBundles, codeTxGasSum]
      · intro hmB
        show acc.totalBytes + (bidSize c eb.txs).1 ≤ mB
        exact hover.1
      · intro hmG
        show acc.totalGas + (bidSize c eb.txs).2 ≤ mG
        exact hover.2

theorem selTxs_inv (c : ChainM) (mB mG : Int) (txs : List Tx) :
    ∀ acc : SelAcc,
      acc.totalBytes = codeTxBytesSum c (flattenBundles acc.bundles) →
      acc.totalGas = codeTxGasSum c (flattenBundles acc.bundles) →
      (0 ≤ mB → acc.totalBytes ≤ mB) → (0 ≤ mG → acc.totalGas ≤ mG) →
      ((txs.foldl (selectTxStep c mB mG) acc).totalBytes
          = codeTxBytesSum c (flattenBundles (txs.foldl (selectTxStep c mB mG) acc).bundles) ∧
       (txs.foldl (selectTxStep c mB mG) acc).totalGas
          = codeTxGasSum c (flattenBundles (txs.foldl (selectTxStep c mB mG) acc).bundles) ∧
       (0 ≤ mB → (txs.foldl (selectTxStep c mB mG) acc).totalBytes ≤ mB) ∧
       (0 ≤ mG → (txs.foldl (selectTxStep c mB mG) acc).totalGas ≤ mG)) := by
  induction txs with
  | nil => exact fun acc h1 h2 h3 h4 => ⟨h1, h2, h3, h4⟩
  | cons t rest ih =>
    intro acc h1 h2 h3 h4
    rw [List.foldl_cons]
    unfold selectTxStep
    cases hby : getTxBytes c t with
    | none => exact ih _ h1 h2 h3 h4
    | some tb =>
      simp only []
      cases hgs : getTxGas c t with
      | none => exact ih _ h1 h2 h3 h4
      | some tg =>
        simp only []
        split_ifs with hover
        · exact ih _ h1 h2 h3 h4
        · push_neg at hover
          have hcontrib : txContrib c t = (tb, tg) := by
            unfold txContrib
            rw [hby, hgs]
          refine ih _ ?_ ?_ ?_ ?_
          · show acc.totalBytes + tb = codeTxBytesSum c (flattenBundles
              (acc.bundles ++ [⟨"mempool", [t], 0, 0⟩]))
            rw [flattenBundles_append, codeTxBytesSum_append, ← h1]
            simp [flattenBundles, codeTxBytesSum, hcontrib]
          · show acc.totalGas + tg = codeTxGasSum c (flattenBundles
              (acc.bundles ++ [⟨"mempool", [t], 0, 0⟩]))
            rw [flattenBundles_append, codeTxGasSum_append, ← h2]
            simp [flattenBundles, codeTxGasSum, hcontrib]
          · intro hmB
            show acc.totalBytes + tb ≤ mB
            exact hover.1
          · intro hmG
            show acc.totalGas + tg ≤ mG
            exact hover.2

/-- C3 (amended): for every successful block-building core run (the code
shared by `Build` and `BuildV1`), the byte and gas totals of the returned
block — where a transaction counts its looked-up size and gas only when
both lookups succeed, and counts zero otherwise, exactly as the packing
loop accounts — are bounded by the respective non-negative limits.  The
`-1` sentinel (no limit) claims no bound. -/
theorem c3_block_within_limits (c : ChainM) (a : Auction) (bids : List Bid)
    (mempool : List Tx) (maxBytes maxGas : Int) (blockTxs : List Tx)
    (hb : buildBlockTxs c a bids mempool maxBytes maxGas = .ok blockTxs) :
    (0 ≤ maxBytes → codeTxBytesSum c blockTxs ≤ maxBytes) ∧
    (0 ≤ maxGas → codeTxGasSum c blockTxs ≤ maxGas) := by
  unfold buildBlockTxs at hb
  cases hco : computeOrder c a bids mempool with
  | error e => rw [hco] at hb; exact absurd hb (by simp)
  | ok w =>
    obtain ⟨W, R, rem⟩ := w
    rw [hco] at hb
    simp only [Except.ok.injEq] at hb
    subst hb
    unfold selectTransactions
    have hmB : ¬ 0 ≤ maxBytes ∨
        (if maxBytes = -1 then maxInt64 else maxBytes) = maxBytes := by
      by_cases h0 : 0 ≤ maxBytes
      · right
        rw [if_neg (by omega)]
      · left
        exact h0
    have hmG : ¬ 0 ≤ maxGas ∨
        (if maxGas = -1 then maxInt64 else maxGas) = maxGas := by
      by_cases h0 : 0 ≤ maxGas
      · right
        rw [if_neg (by omega)]
      · left
        exact h0
    set mB := if maxBytes = -1 then maxInt64 else maxBytes with hmBdef
    set mG := if maxGas = -1 then maxInt64 else maxGas with hmGdef
    have hstep1 := selBids_inv c mB mG W ⟨[], [], [], 0, 0⟩ (by simp [flattenBundles,
      codeTxBytesSum]) (by simp [flattenBundles, codeTxGasSum])
      (fun h0 => by
        show (0 : Int) ≤ mB
        rw [hmBdef]
        split_ifs with hone
        · simp [maxInt64]
        · omega)
      (fun h0 => by
        show (0 : Int) ≤ mG
        rw [hmGdef]
        split_ifs with hone
        · simp [maxInt64]
        · omega)
    have hstep2 := selTxs_inv c mB mG rem _ hstep1.1 hstep1.2.1 hstep1.2.2.1
      hstep1.2.2.2
    constructor
    · intro h0
      rcases hmB with hmB | hmB
      · exact absurd h0 hmB
      · rw [← hstep2.1, ← hmB]
        exact hstep2.2.2.1 (by rw [hmB]; exact h0)
    · intro h0
      rcases hmG with hmG | hmG
      · exact absurd h0 hmG
      · rw [← hstep2.2.1, ← hmG]
        exact hstep2.2.2.2 (by rw [hmG]; exact h0)

/-- C3 counterexample: the block built from a bid holding the transaction
`[2]` — size 100, failing gas lookup — under `maxBytes = 10` contains that
transaction, so the claim's sum of the looked-up byte counts (100) exceeds
`maxBytes`: a transaction with a failing gas lookup contributes its real
bytes to the block but zero to the accounting. -/
theorem c3_counterexample :
    buildBlockTxs c3Chain openAuction101 [c3Bid] [] 10 10 = .ok [[2]] ∧
    specTxBytesSum c3Chain [[2]] = 100 ∧
    ¬ specTxBytesSum c3Chain [[2]] ≤ 10 := by
  refine ⟨rfl, by decide, by decide⟩

/-- Witness for C3: the packed block of the duplicate-free fixture bid
respects the limits under the code's accounting. -/
theorem c3_witness :
    codeTxBytesSum c2Chain [[1]] ≤ 10 ∧ codeTxGasSum c2Chain [[1]] ≤ 10 :=
  ⟨(c3_block_within_limits c2Chain openAuction101 [c2BidB] [] 10 10 [[1]] rfl).1
      (by omega),
   (c3_block_within_limits c2Chain openAuction101 [c2BidB] [] 10 10 [[1]] rfl).2
      (by omega)⟩

/-- Witness for C5 at the fixture chain: height 99 is too old, height 103
is too new for `Build`, and height 105 passes the `Auction` window. -/
theorem c5_witness :
    (auctionReq envChain baseStore 99).1 = .error .tooOld ∧
    (buildReq envChain 1 baseStore 103 "valX" (-1) (-1) [] []).1 = .error .tooNew ∧
    (auctionReq envChain baseStore 105).1 ≠ .error .tooOld := by
  refine ⟨?_, ?_, ?_⟩
  · exact ((c5_height_window envChain baseStore 99 100 1 (-1) (-1) "block" "valX" [] []
      chainARec ⟨100, [("valX", valXChainVal)], 10⟩ rfl rfl rfl rfl).1 (by omega)).1
  · exact ((c5_height_window envChain baseStore 103 100 1 (-1) (-1) "block" "valX" [] []
      chainARec ⟨100, [("valX", valXChainVal)], 10⟩ rfl rfl rfl rfl).2.2.1 (by omega)).1
  · exact ((c5_height_window envChain baseStore 105 100 1 (-1) (-1) "block" "valX" [] []
      chainARec ⟨100, [("valX", valXChainVal)], 10⟩ rfl rfl rfl rfl).2.2.2.1 (by omega)
        (by omega)).1

/-- Witness for C6 at the fixture store and challenge. -/
theorem c6_witness :
    selectChallenge (registerReq envChain baseStore 7 [0]).2 7 = none ∧
    (registerReq envChain (registerReq envChain baseStore 7 [0]).2 7 [1]).1
      = .error .notFound ∧
    (registerReq envChain (registerReq envChain baseStore 7 [0]).2 7 [1]).2
      = (registerReq envChain baseStore 7 [0]).2 :=
  c6_register_deletes_once envChain baseStore 7 [0] [1] fixtureChallenge 100
    ⟨100, [("valX", valXChainVal)], 10⟩ rfl rfl rfl

/-- C10: a kind string whose lowercase form is not exactly `"block"` —
including the empty string — parses as a top-of-block bid; only the
case-insensitive string `"block"` parses as a block bid; and the order
walk rejects a top bid whenever the block already has a winner. -/
theorem c10_parseBidKind_default_top :
    (∀ s : String, lowerString s ≠ "block" → parseBidKind s = BidKind.top) ∧
    parseBidKind "" = BidKind.top ∧
    (∀ s : String, parseBidKind s = BidKind.block ↔ lowerString s = "block") ∧
    (∀ (c : ChainM) (acc : WalkAcc) (b : Bid), b.kind = BidKind.top → acc.winners ≠ [] →
      (walkStep c acc b).winners = acc.winners ∧
      (walkStep c acc b).rejected = acc.rejected ++ [{ b with state := .rejected }]) := by
  refine ⟨?_, by decide, ?_, ?_⟩
  · intro s h
    simp only [parseBidKind, beq_iff_eq, if_neg h]
  · intro s
    unfold parseBidKind
    by_cases h : lowerString s = "block"
    · simp [h]
    · simp [h]
  · intro c acc b hk hw
    simp [walkStep, hk, hw]

/-- Witness for C10 at concrete inputs. -/
theorem c10_witness :
    parseBidKind "Gibberish" = BidKind.top ∧
    (walkStep c1Chain ⟨[c1Bid], [], [], []⟩ { c1Bid with kind := BidKind.top }).winners
      = [c1Bid] :=
  ⟨c10_parseBidKind_default_top.1 "Gibberish" (by decide),
   (c10_parseBidKind_default_top.2.2.2 c1Chain ⟨[c1Bid], [], [], []⟩
      { c1Bid with kind := BidKind.top } rfl (by simp)).1⟩

/-- C1: `evaluateBid` accepts a bid exactly when its total payment is
positive and both allocation differences are strictly below the tolerance
0.01; a difference of exactly 0.01 is rejected (the Go comparison is
`diff < tolerance`), so the claim's `|actualSplit − a| ≤ 0.01` acceptance
condition is corrected to a strict inequality, and a zero total payment is
rejected as well. -/
theorem c1_evaluateBid_accepts_iff (c : ChainM) (a : Auction) (b : Bid) :
    isOkE (evaluateBid c a b) = true ↔
      (0 < bidValidatorPayment c a b.txs + bidMekatekPayment c a b.txs ∧
       |a.validatorAllocation -
          (bidValidatorPayment c a b.txs : Rat) /
            ((bidValidatorPayment c a b.txs + bidMekatekPayment c a b.txs : Int) : Rat)| <
         allocationTolerance ∧
       |(1 - a.validatorAllocation) -
          (bidMekatekPayment c a b.txs : Rat) /
            ((bidValidatorPayment c a b.txs + bidMekatekPayment c a b.txs : Int) : Rat)| <
         allocationTolerance) := by
  by_cases h1 : bidValidatorPayment c a b.txs + bidMekatekPayment c a b.txs ≤ 0
  · simp only [evaluateBid, if_pos h1, isOkE]
    constructor
    · intro h
      exact absurd h (by simp)
    · rintro ⟨hpos, -⟩
      omega
  · simp only [evaluateBid, if_neg h1]
    constructor
    · intro h
      by_cases h2 :
          |a.validatorAllocation -
              (bidValidatorPayment c a b.txs : Rat) /
                ((bidValidatorPayment c a b.txs + bidMekatekPayment c a b.txs : Int) : Rat)| <
            allocationTolerance ∧
          |(1 - a.validatorAllocation) -
              (bidMekatekPayment c a b.txs : Rat) /
                ((bidValidatorPayment c a b.txs + bidMekatekPayment c a b.txs : Int) : Rat)| <
            allocationTolerance
      · exact ⟨by omega, h2.1, h2.2⟩
      · rw [if_neg h2] at h
        exact absurd h (by simp [isOkE])
    · rintro ⟨-, hv, hm⟩
      rw [if_pos ⟨hv, hm⟩]
      rfl

/-- C1 counterexample: the 96 / 4 bid has both allocation differences equal
to 0.01 (so the claim, which accepts differences `≤ 0.01`, would accept
it), yet `evaluateBid` rejects it. -/
theorem c1_counterexample :
    isOkE (evaluateBid c1Chain c1Auction c1Bid) = false ∧
    bidValidatorPayment c1Chain c1Auction c1Bid.txs = 96 ∧
    bidMekatekPayment c1Chain c1Auction c1Bid.txs = 4 ∧
    |c1Auction.validatorAllocation - (96 : Rat) / 100| ≤ 1 / 100 ∧
    |(1 - c1Auction.validatorAllocation) - (4 : Rat) / 100| ≤ 1 / 100 := by
  have hv : bidValidatorPayment c1Chain c1Auction c1Bid.txs = 96 := by decide
  have hm : bidMekatekPayment c1Chain c1Auction c1Bid.txs = 4 := by decide
  refine ⟨?_, hv, hm, ?_, ?_⟩
  · simp only [evaluateBid, hv, hm]
    norm_num [c1Auction, allocationTolerance, abs_lt, isOkE]
  · norm_num [c1Auction, abs_le]
  · norm_num [c1Auction, abs_le]

theorem flattenBundles_sublist_append (bs bs2 : List TxBundle) :
    (flattenBundles bs).Sublist (flattenBundles (bs ++ bs2)) := by
  rw [flattenBundles_append]
  exact List.sublist_append_left _ _

/-- Invariant of the bid-packing loop: every accepted bid's transactions
form a sublist of the flattened bundle list. -/
theorem selBids_sub_inv (c : ChainM) (mB mG : Int) (Wl : List Bid) :
    ∀ acc : SelAcc,
      (∀ w ∈ acc.acceptedBids, w.txs.Sublist (flattenBundles acc.bundles)) →
      ∀ w ∈ (Wl.foldl (selectBidStep c mB mG) acc).acceptedBids,
        w.txs.Sublist (flattenBundles ((Wl.foldl (selectBidStep c mB mG) acc).bundles)) := by
  induction Wl with
  | nil => exact fun acc h => h
  | cons eb rest ih =>
    intro acc h
    rw [List.foldl_cons]
    unfold selectBidStep
    simp only []
    split_ifs with hover
    · exact ih _ h
    · refine ih _ ?_
      intro w hw
      simp only [List.mem_append, List.mem_singleton] at hw
      rcases hw with hw | hw
      · refine (h w hw).trans ?_
        show (flattenBundles acc.bundles).Sublist (flattenBundles (acc.bundles ++
          [⟨"bid " ++ toString eb.id, eb.txs, eb.validatorPayment, eb.mekatekPayment⟩]))
        exact flattenBundles_sublist_append _ _
      · subst hw
        show eb.txs.Sublist (flattenBundles (acc.bundles ++
          [⟨"bid " ++ toString eb.id, eb.txs, eb.validatorPayment, eb.mekatekPayment⟩]))
        rw [flattenBundles_append]
        have hsing : flattenBundles
            [⟨"bid " ++ toString eb.id, eb.txs, eb.validatorPayment, eb.mekatekPayment⟩]
            = eb.txs := by
          simp [flattenBundles]
        rw [hsing]
        exact List.sublist_append_right _ _

/-- Invariant of the mempool-packing loop: it never removes bundles, so
accepted bids' transactions stay sublists of the flattened bundle list. -/
theorem selTxs_sub_inv (c : ChainM) (mB mG : Int) (txs : List Tx) :
    ∀ acc : SelAcc,
      (∀ w ∈ acc.acceptedBids, w.txs.Sublist (flattenBundles acc.bundles)) →
      ∀ w ∈ (txs.foldl (selectTxStep c mB mG) acc).acceptedBids,
        w.txs.Sublist (flattenBundles ((txs.foldl (selectTxStep c mB mG) acc).bundles)) := by
  induction txs with
  | nil => exact fun acc h => h
  | cons t rest ih =>
    intro acc h
    rw [List.foldl_cons]
    unfold selectTxStep
    cases hby : getTxBytes c t with
    | none => exact ih _ h
    | some tb =>
      simp only []
      cases hgs : getTxGas c t with
      | none => exact ih _ h
      | some tg =>
        simp only []
        split_ifs with hover
        · exact ih _ h
        · refine ih _ ?_
          intro w hw
          refine (h w hw).trans ?_
          show (flattenBundles acc.bundles).Sublist
            (flattenBundles (acc.bundles ++ [⟨"mempool", [t], 0, 0⟩]))
          exact flattenBundles_sublist_append _ _

/-- Every bid accepted by `selectTransactions` has all its transactions in
the returned bundle list (hence in the built block). -/
theorem selectTransactions_accepted_sub (c : ChainM) (Wl : List Bid) (rem : List Tx)
    (maxBytes maxGas : Int) :
    ∀ w ∈ (selectTransactions c Wl rem maxBytes maxGas).2.1,
      w.txs.Sublist (flattenBundles (selectTransactions c Wl rem maxBytes maxGas).1) := by
  intro w hw
  have h0 : ∀ w ∈ (⟨[], [], [], 0, 0⟩ : SelAcc).acceptedBids,
      w.txs.Sublist (flattenBundles (⟨[], [], [], 0, 0⟩ : SelAcc).bundles) := by
    intro w hw
    exact absurd hw (List.not_mem_nil w)
  exact selTxs_sub_inv c (if maxBytes = -1 then maxInt64 else maxBytes)
    (if maxGas = -1 then maxInt64 else maxGas) rem _
    (selBids_sub_inv c (if maxBytes = -1 then maxInt64 else maxBytes)
      (if maxGas = -1 then maxInt64 else maxGas) Wl ⟨[], [], [], 0, 0⟩ h0) w hw

/-- C9: a transaction whose decode or re-encode fails is skipped by
`evaluateBid` without failing the bid: it contributes no payments, its
original bytes are kept in the bid's transaction list, and the bid's
acceptance is exactly that of the bid without it.  In `selectTransactions`
a transaction whose decode fails counts zero bytes and zero gas, and every
accepted bid's transactions — skipped ones included — appear in the built
block. -/
theorem c9_skipped_tx (c : ChainM) (a : Auction) (b : Bid) (t : Tx) (l1 l2 : List Tx)
    (hskip : c.decodeTx t = none ∨ ∃ tx, c.decodeTx t = some tx ∧ c.encodeTx tx = none) :
    evalTx c a t = (t, [], 0, 0) ∧
    bidValidatorPayment c a (l1 ++ t :: l2) = bidValidatorPayment c a (l1 ++ l2) ∧
    bidMekatekPayment c a (l1 ++ t :: l2) = bidMekatekPayment c a (l1 ++ l2) ∧
    bidPaymentsList c a (l1 ++ t :: l2) = bidPaymentsList c a (l1 ++ l2) ∧
    normalizedTxs c a (l1 ++ t :: l2)
      = normalizedTxs c a l1 ++ t :: normalizedTxs c a l2 ∧
    isOkE (evaluateBid c a { b with txs := l1 ++ t :: l2 })
      = isOkE (evaluateBid c a { b with txs := l1 ++ l2 }) ∧
    (c.decodeTx t = none → txContrib c t = (0, 0)) ∧
    (∀ (Wl : List Bid) (rem : List Tx) (maxBytes maxGas : Int),
      ∀ w ∈ (selectTransactions c Wl rem maxBytes maxGas).2.1,
        ∀ tx ∈ w.txs, tx ∈ flattenBundles (selectTransactions c Wl rem maxBytes maxGas).1) := by
  have h1 : evalTx c a t = (t, [], 0, 0) := by
    rcases hskip with h | ⟨tx, hd, he⟩
    · unfold evalTx
      rw [h]
    · unfold evalTx
      simp only [hd, he]
  have hres : evalResults c a (l1 ++ t :: l2)
      = evalResults c a l1 ++ (t, [], 0, 0) :: evalResults c a l2 := by
    unfold evalResults
    rw [List.map_append, List.map_cons, h1]
  have hres2 : evalResults c a (l1 ++ l2) = evalResults c a l1 ++ evalResults c a l2 := by
    unfold evalResults
    rw [List.map_append]
  have hvp : bidValidatorPayment c a (l1 ++ t :: l2) = bidValidatorPayment c a (l1 ++ l2) := by
    unfold bidValidatorPayment
    rw [hres, hres2]
    simp
  have hmp : bidMekatekPayment c a (l1 ++ t :: l2) = bidMekatekPayment c a (l1 ++ l2) := by
    unfold bidMekatekPayment
    rw [hres, hres2]
    simp
  have hpl : bidPaymentsList c a (l1 ++ t :: l2) = bidPaymentsList c a (l1 ++ l2) := by
    unfold bidPaymentsList
    rw [hres, hres2]
    simp
  have hnorm : normalizedTxs c a (l1 ++ t :: l2)
      = normalizedTxs c a l1 ++ t :: normalizedTxs c a l2 := by
    unfold normalizedTxs
    rw [hres]
    simp [evalResults]
  refine ⟨h1, hvp, hmp, hpl, hnorm, ?_, ?_, ?_⟩
  · simp only [evaluateBid]
    rw [hvp, hmp]
    split_ifs <;> simp [isOkE]
  · intro h
    unfold txContrib getTxBytes
    rw [h]
    rfl
  · intro Wl rem maxBytes maxGas w hw tx htx
    exact (selectTransactions_accepted_sub c Wl rem maxBytes maxGas w hw).mem htx

/-- C9 counterexample: the transaction `[5]` decodes but fails to
re-encode, so `evaluateBid` skips it — yet its byte/gas lookups succeed, so
`selectTransactions` counts its real 7 bytes and 3 gas toward the limits,
not zero as the claim states. -/
theorem c9_counterexample :
    c9Chain.decodeTx [5] = some ⟨[], some 7, some 3⟩ ∧
    c9Chain.encodeTx ⟨[], some 7, some 3⟩ = none ∧
    evalTx c9Chain openAuction101 [5] = ([5], [], 0, 0) ∧
    txContrib c9Chain [5] = (7, 3) ∧
    ¬ txContrib c9Chain [5] = (0, 0) ∧
    (selectTransactions c9Chain [{ c9Bid with txs := [[5]] }] [] (-1) (-1)).2.2.2
      = (7, 3) := by
  exact ⟨rfl, rfl, rfl, rfl, by decide, by decide⟩

/-- Witness for C9: the undecodable transaction `[9]` is skipped by the
evaluation (original bytes, no payments) and contributes zero bytes and
gas to the packing totals. -/
theorem c9_witness :
    evalTx c9Chain openAuction101 [9] = ([9], [], 0, 0) ∧
    txContrib c9Chain [9] = (0, 0) := by
  refine ⟨(c9_skipped_tx c9Chain openAuction101 c9Bid [9] [[1]] [] (Or.inl rfl)).1, ?_⟩
  exact (c9_skipped_tx c9Chain openAuction101 c9Bid [9] [[1]] []
    (Or.inl rfl)).2.2.2.2.2.2.1 rfl

/-- Invariant of `computeOrder`'s walk: the claimed-hash list is exactly
the concatenation of the winners' transaction hashes, and it is
duplicate-free whenever each winner's own hash list is. -/
theorem walk_inv (c : ChainM) (sorted : List Bid) :
    ∀ acc : WalkAcc,
      acc.claimed = acc.winners.flatMap (fun b => b.txs.map c.hashTx) →
      ((∀ b ∈ acc.winners, (b.txs.map c.hashTx).Nodup) → acc.claimed.Nodup) →
      ((sorted.foldl (walkStep c) acc).claimed
          = (sorted.foldl (walkStep c) acc).winners.flatMap (fun b => b.txs.map c.hashTx) ∧
        ((∀ b ∈ (sorted.foldl (walkStep c) acc).winners, (b.txs.map c.hashTx).Nodup) →
          (sorted.foldl (walkStep c) acc).claimed.Nodup)) := by
  induction sorted with
  | nil => exact fun acc h1 h2 => ⟨h1, h2⟩
  | cons eb rest ih =>
    intro acc h1 h2
    rw [List.foldl_cons]
    unfold walkStep
    split_ifs with ht hc
    · exact ih _ h1 h2
    · exact ih _ h1 h2
    · cases hdp : debitPayments acc.balances eb.payments with
      | none => exact ih _ h1 h2
      | some newBal =>
        simp only []
        have hc' : ∀ tx ∈ eb.txs, c.hashTx tx ∉ acc.claimed := by
          intro tx htx hmem
          exact hc (List.any_eq_true.2 ⟨tx, htx, by simpa using hmem⟩)
        refine ih _ ?_ ?_
        · show acc.claimed ++ eb.txs.map c.hashTx
            = (acc.winners ++ [eb]).flatMap (fun b => b.txs.map c.hashTx)
          rw [List.flatMap_append, ← h1]
          simp
        · intro hN
          show (acc.claimed ++ eb.txs.map c.hashTx).Nodup
          rw [List.nodup_append]
          refine ⟨h2 (fun b hb => hN b (by simp [hb])), hN eb (by simp), ?_⟩
          rw [List.disjoint_right]
          intro x hx
          obtain ⟨tx, htx, hxeq⟩ := List.mem_map.1 hx
          subst hxeq
          exact hc' tx htx

/-- Invariant of the mempool-remainder loop: it appends a duplicate-free
batch of kept transactions whose hashes extend the claimed list without
collisions. -/
theorem mempool_inv (c : ChainM) (txs : List Tx) :
    ∀ acc : List Tx × List String,
      acc.2.Nodup →
      ∃ kept : List Tx,
        (txs.foldl (fun acc tx =>
            if acc.2.contains (c.hashTx tx) then acc
            else (acc.1 ++ [tx], acc.2 ++ [c.hashTx tx])) acc)
          = (acc.1 ++ kept, acc.2 ++ kept.map c.hashTx) ∧
        (acc.2 ++ kept.map c.hashTx).Nodup := by
  induction txs with
  | nil =>
    intro acc hN
    exact ⟨[], by simp, by simpa using hN⟩
  | cons t rest ih =>
    intro acc hN
    rw [List.foldl_cons]
    by_cases hcon : acc.2.contains (c.hashTx t) = true
    · rw [if_pos hcon]
      exact ih acc hN
    · rw [if_neg hcon]
      have hnotmem : c.hashTx t ∉ acc.2 := by
        intro hmem
        exact hcon (by simpa using hmem)
      obtain ⟨kept, hk, hkN⟩ := ih (acc.1 ++ [t], acc.2 ++ [c.hashTx t]) (by
        rw [List.nodup_append]
        exact ⟨hN, List.nodup_singleton _, by
          rw [List.disjoint_right]
          intro x hx
          rw [List.mem_singleton] at hx
          subst hx
          exact hnotmem⟩)
      refine ⟨t :: kept, ?_, ?_⟩
      · rw [hk]
        simp
      · rw [List.append_assoc] at hkN
        simpa using hkN

/-- The hash list of the winners' pooled transactions. -/
theorem flatMapTxs_map_hash (c : ChainM) (l : List Bid) :
    (l.flatMap (fun b => b.txs)).map c.hashTx = l.flatMap (fun b => b.txs.map c.hashTx) := by
  induction l with
  | nil => rfl
  | cons b rest ih => simp [ih]

/-- `computeOrder` output pool: when each winning bid's own hash list is
duplicate-free, the winners' hashes plus the mempool remainder's hashes
are globally duplicate-free. -/
theorem computeOrder_nodup (c : ChainM) (a : Auction) (bids : List Bid) (mempool : List Tx)
    (W R : List Bid) (rem : List Tx)
    (hco : computeOrder c a bids mempool = .ok (W, R, rem))
    (hnodup : ∀ b ∈ W, (b.txs.map c.hashTx).Nodup) :
    (W.flatMap (fun b => b.txs.map c.hashTx) ++ rem.map c.hashTx).Nodup := by
  unfold computeOrder at hco
  cases hev : evalPendings c a bids with
  | error e => rw [hev] at hco; exact absurd hco (by simp)
  | ok evBids =>
    rw [hev] at hco
    simp only [Except.ok.injEq, Prod.mk.injEq] at hco
    obtain ⟨hW, hR, hrem⟩ := hco
    generalize hwdef : (sortBids evBids).foldl (walkStep c)
      ⟨[], [], [], senderBalances c a evBids⟩ = wk at hW hR hrem
    have hwk := walk_inv c (sortBids evBids) ⟨[], [], [], senderBalances c a evBids⟩ rfl
      (fun _ => List.nodup_nil)
    rw [hwdef] at hwk
    have hclN : wk.claimed.Nodup := hwk.2 (fun b hb => hnodup b (hW ▸ hb))
    obtain ⟨kept, hk, hkN⟩ := mempool_inv c mempool ([], wk.claimed) hclN
    have hrem' : rem = kept := by
      rw [← hrem]
      unfold mempoolRemainder
      rw [hk]
      simp
    rw [← hW, ← hwk.1, hrem']
    simpa using hkN

/-- The bid-packing loop only emits transactions drawn, in order, from the
winning bids' pooled transaction lists. -/
theorem selBids_flat_sublist (c : ChainM) (mB mG : Int) (Wl : List Bid) :
    ∀ (acc : SelAcc) (X : List Tx),
      (flattenBundles acc.bundles).Sublist X →
      (flattenBundles ((Wl.foldl (selectBidStep c mB mG) acc).bundles)).Sublist
        (X ++ Wl.flatMap (fun b => b.txs)) := by
  induction Wl with
  | nil => intro acc X h; simpa using h
  | cons eb rest ih =>
    intro acc X h
    rw [List.foldl_cons]
    unfold selectBidStep
    simp only []
    split_ifs with hover
    · rw [List.flatMap_cons, ← List.append_assoc]
      exact ih _ (X ++ eb.txs) (h.trans (List.sublist_append_left X eb.txs))
    · rw [List.flatMap_cons, ← List.append_assoc]
      refine ih _ (X ++ eb.txs) ?_
      show (flattenBundles (acc.bundles ++
        [⟨"bid " ++ toString eb.id, eb.txs, eb.validatorPayment,
          eb.mekatekPayment⟩])).Sublist (X ++ eb.txs)
      rw [flattenBundles_append]
      have hsing : flattenBundles [⟨"bid " ++ toString eb.id, eb.txs, eb.validatorPayment,
          eb.mekatekPayment⟩] = eb.txs := by
        simp [flattenBundles]
      rw [hsing]
      exact h.append (List.Sublist.refl eb.txs)

/-- The mempool-packing loop only appends transactions drawn, in order,
from the remainder list. -/
theorem selTxs_flat_sublist (c : ChainM) (mB mG : Int) (txs : List Tx) :
    ∀ (acc : SelAcc) (X : List Tx),
      (flattenBundles acc.bundles).Sublist X →
      (flattenBundles ((txs.foldl (selectTxStep c mB mG) acc).bundles)).Sublist (X ++ txs) := by
  induction txs with
  | nil => intro acc X h; simpa using h
  | cons t rest ih =>
    intro acc X h
    have hw : X ++ t :: rest = (X ++ [t]) ++ rest := by simp
    rw [List.foldl_cons]
    unfold selectTxStep
    cases hby : getTxBytes c t with
    | none =>
      rw [hw]
      exact ih _ (X ++ [t]) (h.trans (List.sublist_append_left X [t]))
    | some tb =>
      simp only []
      cases hgs : getTxGas c t with
      | none =>
        rw [hw]
        exact ih _ (X ++ [t]) (h.trans (List.sublist_append_left X [t]))
      | some tg =>
        simp only []
        split_ifs with hover
        · rw [hw]
          exact ih _ (X ++ [t]) (h.trans (List.sublist_append_left X [t]))
        · rw [hw]
          refine ih _ (X ++ [t]) ?_
          show (flattenBundles (acc.bundles ++ [⟨"mempool", [t], 0, 0⟩])).Sublist (X ++ [t])
          rw [flattenBundles_append]
          have hsing : flattenBundles [⟨"mempool", [t], 0, 0⟩] = [t] := by
            simp [flattenBundles]
          rw [hsing]
          exact h.append (List.Sublist.refl [t])

/-- The flattened block is a sublist of the winners' pooled transactions
followed by the mempool remainder. -/
theorem selectTransactions_flat_sublist (c : ChainM) (Wl : List Bid) (rem : List Tx)
    (maxBytes maxGas : Int) :
    (flattenBundles (selectTransactions c Wl rem maxBytes maxGas).1).Sublist
      (Wl.flatMap (fun b => b.txs) ++ rem) := by
  have h0 : (flattenBundles ((⟨[], [], [], 0, 0⟩ : SelAcc).bundles)).Sublist ([] : List Tx) := by
    simp [flattenBundles]
  have h1 := selBids_flat_sublist c (if maxBytes = -1 then maxInt64 else maxBytes)
    (if maxGas = -1 then maxInt64 else maxGas) Wl ⟨[], [], [], 0, 0⟩ [] h0
  have h2 := selTxs_flat_sublist c (if maxBytes = -1 then maxInt64 else maxBytes)
    (if maxGas = -1 then maxInt64 else maxGas) rem _ (Wl.flatMap (fun b => b.txs))
    (by simpa using h1)
  exact h2

/-- C2 (amended): a successful block build contains no duplicate
transaction hash provided every winning bid's own transaction-hash list is
duplicate-free; `computeOrder` guarantees disjointness across bids and
against the mempool remainder, but performs no within-bid deduplication. -/
theorem c2_no_duplicate_hashes (c : ChainM) (a : Auction) (bids : List Bid)
    (mempool : List Tx) (maxBytes maxGas : Int) (W R : List Bid) (rem : List Tx)
    (hco : computeOrder c a bids mempool = .ok (W, R, rem))
    (hnodup : ∀ b ∈ W, (b.txs.map c.hashTx).Nodup)
    (blockTxs : List Tx)
    (hb : buildBlockTxs c a bids mempool maxBytes maxGas = .ok blockTxs) :
    (blockTxs.map c.hashTx).Nodup := by
  unfold buildBlockTxs at hb
  rw [hco] at hb
  simp only [Except.ok.injEq] at hb
  subst hb
  have hpool := computeOrder_nodup c a bids mempool W R rem hco hnodup
  have hsub := selectTransactions_flat_sublist c W rem maxBytes maxGas
  refine List.Nodup.sublist (hsub.map c.hashTx) ?_
  rw [List.map_append, flatMapTxs_map_hash]
  exact hpool

/-- C2 counterexample: a single winning bid listing the same transaction
`[1]` twice yields a successful build whose block contains the hash of
`[1]` twice — the walk's claimed-hash check only guards across bids. -/
theorem c2_counterexample :
    buildBlockTxs c2Chain openAuction101 [c2Bid] [] (-1) (-1) = .ok [[1], [1]] ∧
    ¬ (([[1], [1]] : List Tx).map c2Chain.hashTx).Nodup := by
  exact ⟨rfl, by decide⟩

/-- Witness for C2: the duplicate-free variant builds a block with
duplicate-free hashes. -/
theorem c2_witness :
    buildBlockTxs c2Chain openAuction101 [c2BidB] [] (-1) (-1) = .ok [[1]] ∧
    (([[1]] : List Tx).map c2Chain.hashTx).Nodup := by
  refine ⟨rfl, ?_⟩
  exact c2_no_duplicate_hashes c2Chain openAuction101 [c2BidB] [] (-1) (-1) [c2BidB] [] []
    rfl (by decide) [[1]] (by rfl)

theorem lookupA_none_key {K V : Type} [DecidableEq K] (l : List (K × V)) (k : K)
    (h : lookupA l k = none) : ∀ p ∈ l, p.1 ≠ k := by
  induction l with
  | nil => intro p hp; exact absurd hp (List.not_mem_nil p)
  | cons q rest ih =>
    intro p hp
    obtain ⟨k', v⟩ := q
    rw [lookupA_cons] at h
    by_cases hk : k' = k
    · rw [if_pos hk] at h
      exact Option.noConfusion h
    · rw [if_neg hk] at h
      rcases List.mem_cons.1 hp with hp | hp
      · subst hp
        exact hk
      · exact ih h p hp

theorem mem_eraseA {K V : Type} [DecidableEq K] (l : List (K × V)) (k : K)
    (p : K × V) (hp : p ∈ eraseA l k) : p ∈ l ∧ p.1 ≠ k := by
  unfold eraseA at hp
  have h := List.mem_filter.1 hp
  exact ⟨h.1, by simpa using h.2⟩

theorem eraseA_sublist {K V : Type} [DecidableEq K] (l : List (K × V)) (k : K) :
    (eraseA l k).Sublist l :=
  List.filter_sublist l

theorem foldl_eraseA_sublist {K V : Type} [DecidableEq K] (kills : List K) :
    ∀ l : List (K × V), (kills.foldl (fun m kill => eraseA m kill) l).Sublist l := by
  induction kills with
  | nil => exact fun l => List.Sublist.refl l
  | cons k0 rest ih =>
    intro l
    rw [List.foldl_cons]
    exact (ih (eraseA l k0)).trans (eraseA_sublist l k0)

theorem mem_foldl_eraseA {K V : Type} [DecidableEq K] (kills : List K) :
    ∀ (l : List (K × V)) (p : K × V),
      p ∈ kills.foldl (fun m kill => eraseA m kill) l → p ∈ l ∧ p.1 ∉ kills := by
  induction kills with
  | nil => exact fun l p hp => ⟨hp, List.not_mem_nil _⟩
  | cons k0 rest ih =>
    intro l p hp
    rw [List.foldl_cons] at hp
    obtain ⟨hp1, hp2⟩ := ih (eraseA l k0) p hp
    obtain ⟨hp3, hp4⟩ := mem_eraseA l k0 p hp1
    refine ⟨hp3, ?_⟩
    rw [List.mem_cons]
    rintro (h | h)
    · exact hp4 h
    · exact hp2 h

theorem getD_set_self {α : Type} (l : List α) (i : Nat) (x d : α) (h : i < l.length) :
    (l.set i x).getD i d = x := by
  induction l generalizing i with
  | nil => exact absurd h (by simp)
  | cons a rest ih =>
    cases i with
    | zero => rfl
    | succ j =>
      simp only [List.set, List.getD, List.get?]
      exact ih j (by simpa using h)

theorem getD_set_ne {α : Type} (l : List α) (i j : Nat) (x d : α) (h : i ≠ j) :
    (l.set i x).getD j d = l.getD j d := by
  induction l generalizing i j with
  | nil => simp [List.set]
  | cons a rest ih =>
    cases i with
    | zero =>
      cases j with
      | zero => exact absurd rfl h
      | succ j' => rfl
    | succ i' =>
      cases j with
      | zero => rfl
      | succ j' =>
        simp only [List.set, List.getD, List.get?]
        exact ih i' j' (fun he => h (by rw [he]))

theorem pokeSeq_fst_nodup {K : Type} [DecidableEq K] (s : List K) (mx : Nat) (k : K)
    (hC : s.Nodup) : (pokeSeq s mx k).1.Nodup := by
  unfold pokeSeq
  simp only []
  have hs'N : (if s.contains k then s.erase k ++ [k] else s ++ [k]).Nodup := by
    split_ifs with hcon
    · rw [List.nodup_append]
      refine ⟨hC.erase k, List.nodup_singleton k, ?_⟩
      rw [List.disjoint_right]
      intro a ha
      rw [List.mem_singleton] at ha
      subst ha
      intro hmem
      rw [hC.mem_erase_iff] at hmem
      exact hmem.1 rfl
    · rw [List.nodup_append]
      refine ⟨hC, List.nodup_singleton k, ?_⟩
      rw [List.disjoint_right]
      intro a ha
      rw [List.mem_singleton] at ha
      subst ha
      intro hmem
      exact hcon (by simpa using hmem)
  exact List.Nodup.sublist (List.drop_sublist _ _) hs'N

theorem pokeSeq_fst_len {K : Type} [DecidableEq K] (s : List K) (mx : Nat) (k : K) :
    (pokeSeq s mx k).1.length ≤ mx := by
  unfold pokeSeq
  simp only []
  rw [List.length_drop]
  omega

theorem pokeSeq_decomp {K : Type} [DecidableEq K] (s : List K) (mx : Nat) (k : K) :
    (pokeSeq s mx k).2 ++ (pokeSeq s mx k).1
      = (if s.contains k then s.erase k ++ [k] else s ++ [k]) := by
  unfold pokeSeq
  simp only []
  exact List.take_append_drop _ _

theorem pokeSeq_superset {K : Type} [DecidableEq K] (s : List K) (mx : Nat) (k : K)
    (x : K) (hx : x ∈ s ∨ x = k) :
    x ∈ (pokeSeq s mx k).2 ++ (pokeSeq s mx k).1 := by
  rw [pokeSeq_decomp]
  split_ifs with hcon
  · rcases hx with hx | hx
    · by_cases hxk : x = k
      · subst hxk
        simp
      · rw [List.mem_append]
        exact Or.inl ((List.mem_erase_of_ne hxk).2 hx)
    · subst hx
      simp
  · rcases hx with hx | hx
    · rw [List.mem_append]
      exact Or.inl hx
    · subst hx
      simp

theorem nodup_lt_length_le (l : List Nat) (n : Nat) (hN : l.Nodup)
    (hlt : ∀ x ∈ l, x < n) : l.length ≤ n := by
  have hsub : l ⊆ List.range n := fun x hx => List.mem_range.2 (hlt x hx)
  have := (hN.subperm hsub).length_le
  simpa using this

/-- One `condCache.Get` preserves the cache/LRU-line invariants: cache
keys lie on the line, cache keys and the line are duplicate-free, the line
is no longer than the limit, and the limit is unchanged. -/
theorem condGet_inv {K V : Type} [DecidableEq K] (st : CondCacheSt K V) (k : K)
    (fl : Except String V)
    (hA : ∀ p ∈ st.cache, p.1 ∈ st.order)
    (hB : (st.cache.map Prod.fst).Nodup)
    (hC : st.order.Nodup)
    (hD : st.order.length ≤ st.limit) :
    (∀ p ∈ (condGet st k fl).2.cache, p.1 ∈ (condGet st k fl).2.order) ∧
    ((condGet st k fl).2.cache.map Prod.fst).Nodup ∧
    (condGet st k fl).2.order.Nodup ∧
    (condGet st k fl).2.order.length ≤ (condGet st k fl).2.limit ∧
    (condGet st k fl).2.limit = st.limit := by
  unfold condGet
  cases hlk : lookupA st.cache k with
  | some r =>
    simp only []
    refine ⟨?_, ?_, pokeSeq_fst_nodup _ _ _ hC, pokeSeq_fst_len _ _ _, trivial⟩
    · intro p hp
      obtain ⟨hpc, hpk⟩ := mem_foldl_eraseA _ _ _ hp
      have hmem := pokeSeq_superset st.order st.limit k p.1 (Or.inl (hA p hpc))
      rw [List.mem_append] at hmem
      rcases hmem with hmem | hmem
      · exact absurd hmem hpk
      · exact hmem
    · exact List.Nodup.sublist (List.Sublist.map _ (foldl_eraseA_sublist _ _)) hB
  | none =>
    simp only []
    have hkeys : k ∉ st.cache.map Prod.fst := by
      intro hmem
      obtain ⟨p, hp, hpk⟩ := List.mem_map.1 hmem
      exact lookupA_none_key st.cache k hlk p hp hpk
    have hB1 : ((st.cache ++ [(k, fl)]).map Prod.fst).Nodup := by
      rw [List.map_append, List.nodup_append]
      refine ⟨hB, List.nodup_singleton _, ?_⟩
      rw [List.disjoint_right]
      intro a ha
      have ha' : a = k := by simpa using ha
      subst ha'
      exact hkeys
    have hmemc : ∀ p ∈ (pokeSeq st.order st.limit k).2.foldl
        (fun m kill => eraseA m kill) (st.cache ++ [(k, fl)]),
        p.1 ∈ (pokeSeq st.order st.limit k).1 := by
      intro p hp
      obtain ⟨hpc, hpk⟩ := mem_foldl_eraseA _ _ _ hp
      have hor : p.1 ∈ st.order ∨ p.1 = k := by
        rw [List.mem_append] at hpc
        rcases hpc with hpc | hpc
        · exact Or.inl (hA p hpc)
        · rw [List.mem_singleton.1 hpc]
          exact Or.inr rfl
      have hmem := pokeSeq_superset st.order st.limit k p.1 hor
      rw [List.mem_append] at hmem
      rcases hmem with hmem | hmem
      · exact absurd hmem hpk
      · exact hmem
    have hB2 : (((pokeSeq st.order st.limit k).2.foldl
        (fun m kill => eraseA m kill) (st.cache ++ [(k, fl)])).map Prod.fst).Nodup :=
      List.Nodup.sublist (List.Sublist.map _ (foldl_eraseA_sublist _ _)) hB1
    cases fl with
    | error e =>
      simp only []
      refine ⟨?_, ?_, ?_, ?_, trivial⟩
      · intro p hp
        obtain ⟨hpc, hpk⟩ := mem_eraseA _ _ _ hp
        rw [List.mem_filter]
        exact ⟨hmemc p hpc, by simpa using hpk⟩
      · exact List.Nodup.sublist (List.Sublist.map _ (eraseA_sublist _ _)) hB2
      · exact List.Nodup.sublist (List.filter_sublist _) (pokeSeq_fst_nodup _ _ _ hC)
      · exact le_trans (List.length_filter_le _ _) (pokeSeq_fst_len _ _ _)
    | ok v =>
      simp only []
      exact ⟨hmemc, hB2, pokeSeq_fst_nodup _ _ _ hC, pokeSeq_fst_len _ _ _, trivial⟩

/-- The invariants hold after any sequence of `condCache.Get` calls. -/
theorem condFold_inv {K V : Type} [DecidableEq K] (ops : List (K × Except String V)) :
    ∀ st : CondCacheSt K V,
      (∀ p ∈ st.cache, p.1 ∈ st.order) →
      (st.cache.map Prod.fst).Nodup →
      st.order.Nodup →
      st.order.length ≤ st.limit →
      ((∀ p ∈ (ops.foldl (fun st op => (condGet st op.1 op.2).2) st).cache,
          p.1 ∈ (ops.foldl (fun st op => (condGet st op.1 op.2).2) st).order) ∧
       (((ops.foldl (fun st op => (condGet st op.1 op.2).2) st).cache.map Prod.fst).Nodup) ∧
       (ops.foldl (fun st op => (condGet st op.1 op.2).2) st).order.Nodup ∧
       (ops.foldl (fun st op => (condGet st op.1 op.2).2) st).order.length
          ≤ (ops.foldl (fun st op => (condGet st op.1 op.2).2) st).limit ∧
       (ops.foldl (fun st op => (condGet st op.1 op.2).2) st).limit = st.limit) := by
  induction ops with
  | nil => exact fun st h1 h2 h3 h4 => ⟨h1, h2, h3, h4, rfl⟩
  | cons op rest ih =>
    intro st h1 h2 h3 h4
    rw [List.foldl_cons]
    obtain ⟨g1, g2, g3, g4, g5⟩ := condGet_inv st op.1 op.2 h1 h2 h3 h4
    obtain ⟨r1, r2, r3, r4, r5⟩ := ih _ g1 g2 g3 g4
    exact ⟨r1, r2, r3, r4, r5.trans g5⟩

theorem ringMiss_ok_aux {K V : Type} [DecidableEq K] (st : RingCacheSt K V) (k : K)
    (fl : Except String V) (index1 : List (K × Nat))
    (hR1 : st.head < st.ring.length)
    (hsub : ∀ p ∈ index1, p ∈ st.index)
    (hN1 : (index1.map Prod.fst).Nodup)
    (hS1 : ∀ p ∈ index1, p.2 ≠ st.head)
    (hkey : ∀ p ∈ st.index, p.1 ≠ k)
    (hR3 : ∀ p ∈ st.index, p.2 < st.ring.length ∧
      ∃ e, st.ring.getD p.2 none = some e ∧ e.1 = p.1) :
    (st.head + 1) % st.ring.length < (st.ring.set st.head (some (k, fl))).length ∧
    (((index1 ++ [(k, st.head)]).map Prod.fst).Nodup) ∧
    (∀ p ∈ index1 ++ [(k, st.head)],
      p.2 < (st.ring.set st.head (some (k, fl))).length ∧
      ∃ e, (st.ring.set st.head (some (k, fl))).getD p.2 none = some e ∧ e.1 = p.1) ∧
    (st.ring.set st.head (some (k, fl))).length = st.ring.length := by
  have hpos : 0 < st.ring.length := Nat.lt_of_le_of_lt (Nat.zero_le st.head) hR1
  refine ⟨?_, ?_, ?_, List.length_set st.ring st.head _⟩
  · rw [List.length_set]
    exact Nat.mod_lt _ hpos
  · rw [List.map_append, List.nodup_append]
    refine ⟨hN1, List.nodup_singleton _, ?_⟩
    rw [List.disjoint_right]
    intro a ha
    have ha' : a = k := by simpa using ha
    subst ha'
    intro hmem
    obtain ⟨p, hp, hpk⟩ := List.mem_map.1 hmem
    exact hkey p (hsub p hp) hpk
  · intro p hp
    rw [List.mem_append] at hp
    rcases hp with hp | hp
    · have hpin := hsub p hp
      obtain ⟨hlt, e, he, hek⟩ := hR3 p hpin
      refine ⟨by rw [List.length_set]; exact hlt, e, ?_, hek⟩
      rw [getD_set_ne _ _ _ _ _ (Ne.symm (hS1 p hp))]
      exact he
    · rw [List.mem_singleton.1 hp]
      refine ⟨by rw [List.length_set]; exact hR1, (k, fl), ?_, rfl⟩
      exact getD_set_self st.ring st.head _ _ hR1

theorem ringMiss_err_aux {K V : Type} [DecidableEq K] (st : RingCacheSt K V) (k : K)
    (index1 : List (K × Nat))
    (hR1 : st.head < st.ring.length)
    (hsub : ∀ p ∈ index1, p ∈ st.index)
    (hN1 : (index1.map Prod.fst).Nodup)
    (hS1 : ∀ p ∈ index1, p.2 ≠ st.head)
    (hkey : ∀ p ∈ st.index, p.1 ≠ k)
    (hR3 : ∀ p ∈ st.index, p.2 < st.ring.length ∧
      ∃ e, st.ring.getD p.2 none = some e ∧ e.1 = p.1) :
    (st.head + 1) % st.ring.length
      < (st.ring.set st.head (none : Option (K × Except String V))).length ∧
    ((eraseA (index1 ++ [(k, st.head)]) k).map Prod.fst).Nodup ∧
    (∀ p ∈ eraseA (index1 ++ [(k, st.head)]) k,
      p.2 < (st.ring.set st.head (none : Option (K × Except String V))).length ∧
      ∃ e, (st.ring.set st.head (none : Option (K × Except String V))).getD p.2 none
        = some e ∧ e.1 = p.1) ∧
    (st.ring.set st.head (none : Option (K × Except String V))).length = st.ring.length := by
  have hpos : 0 < st.ring.length := Nat.lt_of_le_of_lt (Nat.zero_le st.head) hR1
  have hN2 : ((index1 ++ [(k, st.head)]).map Prod.fst).Nodup := by
    rw [List.map_append, List.nodup_append]
    refine ⟨hN1, List.nodup_singleton _, ?_⟩
    rw [List.disjoint_right]
    intro a ha
    have ha' : a = k := by simpa using ha
    subst ha'
    intro hmem
    obtain ⟨p, hp, hpk⟩ := List.mem_map.1 hmem
    exact hkey p (hsub p hp) hpk
  refine ⟨?_, ?_, ?_, List.length_set st.ring st.head _⟩
  · rw [List.length_set]
    exact Nat.mod_lt _ hpos
  · exact List.Nodup.sublist (List.Sublist.map _ (eraseA_sublist _ _)) hN2
  · intro p hp
    obtain ⟨hp2, hpk⟩ := mem_eraseA _ _ _ hp
    rw [List.mem_append] at hp2
    rcases hp2 with hp2 | hp2
    · have hpin := hsub p hp2
      obtain ⟨hlt, e, he, hek⟩ := hR3 p hpin
      refine ⟨by rw [List.length_set]; exact hlt, e, ?_, hek⟩
      rw [getD_set_ne _ _ _ _ _ (Ne.symm (hS1 p hp2))]
      exact he
    · exact absurd (congrArg Prod.fst (List.mem_singleton.1 hp2)) hpk

/-- One `ringCache.Get` preserves the ring invariants: the head points
into the ring, index keys are duplicate-free, every index entry points at
a live slot holding its key, and the ring length is unchanged. -/
theorem ringGet_inv {K V : Type} [DecidableEq K] (st : RingCacheSt K V) (k : K)
    (fl : Except String V)
    (hR1 : st.head < st.ring.length)
    (hR2 : (st.index.map Prod.fst).Nodup)
    (hR3 : ∀ p ∈ st.index, p.2 < st.ring.length ∧
      ∃ e, st.ring.getD p.2 none = some e ∧ e.1 = p.1) :
    (ringGet st k fl).2.head < (ringGet st k fl).2.ring.length ∧
    ((ringGet st k fl).2.index.map Prod.fst).Nodup ∧
    (∀ p ∈ (ringGet st k fl).2.index, p.2 < (ringGet st k fl).2.ring.length ∧
      ∃ e, (ringGet st k fl).2.ring.getD p.2 none = some e ∧ e.1 = p.1) ∧
    (ringGet st k fl).2.ring.length = st.ring.length := by
  unfold ringGet
  cases hlk : lookupA st.index k with
  | some pos =>
    simp only []
    cases st.ring.getD pos none with
    | some it => exact ⟨hR1, hR2, hR3, rfl⟩
    | none => exact ⟨hR1, hR2, hR3, rfl⟩
  | none =>
    simp only []
    have hkey : ∀ p ∈ st.index, p.1 ≠ k := lookupA_none_key st.index k hlk
    cases hslot : st.ring.getD st.head none with
    | none =>
      simp only []
      have hS1 : ∀ p ∈ st.index, p.2 ≠ st.head := by
        intro p hp hph
        obtain ⟨e, he, -⟩ := (hR3 p hp).2
        rw [hph, hslot] at he
        exact Option.noConfusion he
      cases fl with
      | ok v =>
        exact ringMiss_ok_aux st k (.ok v) st.index hR1 (fun p hp => hp) hR2 hS1 hkey hR3
      | error e =>
        exact ringMiss_err_aux st k st.index hR1 (fun p hp => hp) hR2 hS1 hkey hR3
    | some old =>
      simp only []
      have hsub : ∀ p ∈ eraseA st.index old.1, p ∈ st.index :=
        fun p hp => (mem_eraseA _ _ _ hp).1
      have hN1 : ((eraseA st.index old.1).map Prod.fst).Nodup :=
        List.Nodup.sublist (List.Sublist.map _ (eraseA_sublist _ _)) hR2
      have hS1 : ∀ p ∈ eraseA st.index old.1, p.2 ≠ st.head := by
        intro p hp hph
        obtain ⟨hpin, hpne⟩ := mem_eraseA _ _ _ hp
        obtain ⟨e, he, hek⟩ := (hR3 p hpin).2
        rw [hph, hslot] at he
        have he' : old = e := Option.some.inj he
        rw [← hek, ← he'] at hpne
        exact hpne rfl
      cases fl with
      | ok v =>
        exact ringMiss_ok_aux st k (.ok v) (eraseA st.index old.1) hR1 hsub hN1 hS1 hkey hR3
      | error e =>
        exact ringMiss_err_aux st k (eraseA st.index old.1) hR1 hsub hN1 hS1 hkey hR3

/-- The ring invariants hold after any sequence of `ringCache.Get` calls. -/
theorem ringFold_inv {K V : Type} [DecidableEq K] (ops : List (K × Except String V)) :
    ∀ st : RingCacheSt K V,
      st.head < st.ring.length →
      (st.index.map Prod.fst).Nodup →
      (∀ p ∈ st.index, p.2 < st.ring.length ∧
        ∃ e, st.ring.getD p.2 none = some e ∧ e.1 = p.1) →
      ((ops.foldl (fun st op => (ringGet st op.1 op.2).2) st).head
          < (ops.foldl (fun st op => (ringGet st op.1 op.2).2) st).ring.length ∧
       ((ops.foldl (fun st op => (ringGet st op.1 op.2).2) st).index.map Prod.fst).Nodup ∧
       (∀ p ∈ (ops.foldl (fun st op => (ringGet st op.1 op.2).2) st).index,
          p.2 < (ops.foldl (fun st op => (ringGet st op.1 op.2).2) st).ring.length ∧
          ∃ e, (ops.foldl (fun st op => (ringGet st op.1 op.2).2) st).ring.getD p.2 none
            = some e ∧ e.1 = p.1) ∧
       (ops.foldl (fun st op => (ringGet st op.1 op.2).2) st).ring.length
          = st.ring.length) := by
  induction ops with
  | nil => exact fun st h1 h2 h3 => ⟨h1, h2, h3, rfl⟩
  | cons op rest ih =>
    intro st h1 h2 h3
    rw [List.foldl_cons]
    obtain ⟨g1, g2, g3, g4⟩ := ringGet_inv st op.1 op.2 h1 h2 h3
    obtain ⟨r1, r2, r3, r4⟩ := ih _ g1 g2 g3
    exact ⟨r1, r2, r3, r4.trans g4⟩

/-- C7: both validator-set cache implementations keep `Len() ≤ capacity`
after every sequence of `Get` operations — `condCache.Len` is the cache
map's size, bounded through the LRU line's limit; `ringCache.Len` is the
index size, bounded by the ring's capacity (the ring cache needs a
positive capacity, as the Go code indexes `ring[head]`). -/
theorem c7_cache_len_le {K V : Type} [inst : DecidableEq K] (limit capacity : Nat)
    (ops : List (K × Except String V)) (hcap : 0 < capacity) :
    (condRun limit ops).cache.length ≤ limit ∧
    (ringRun capacity ops).index.length ≤ capacity := by
  constructor
  · obtain ⟨r1, r2, r3, r4, r5⟩ := condFold_inv ops (condInit K V limit)
      (fun p hp => absurd hp (List.not_mem_nil p)) List.nodup_nil List.nodup_nil
      (Nat.zero_le _)
    have hsubs : (condRun limit ops).cache.map Prod.fst ⊆ (condRun limit ops).order := by
      intro x hx
      obtain ⟨p, hp, hpk⟩ := List.mem_map.1 hx
      rw [← hpk]
      exact r1 p hp
    have hlen := (r2.subperm hsubs).length_le
    rw [List.length_map] at hlen
    calc (condRun limit ops).cache.length
        ≤ (condRun limit ops).order.length := hlen
      _ ≤ (condRun limit ops).limit := r4
      _ = limit := r5
  · obtain ⟨r1, r2, r3, r4⟩ := ringFold_inv ops (ringInit K V capacity)
      (by simpa [ringInit] using hcap) List.nodup_nil
      (fun p hp => absurd hp (List.not_mem_nil p))
    have hringlen : (ringRun capacity ops).ring.length = capacity := by
      unfold ringRun
      rw [r4]
      simp [ringInit]
    have hidxN : (ringRun capacity ops).index.Nodup := r2.of_map
    have hsndN : ((ringRun capacity ops).index.map Prod.snd).Nodup := by
      refine List.Nodup.map_on ?_ hidxN
      intro p hp q hq hpq
      obtain ⟨-, ep, hep, hkp⟩ := r3 p hp
      obtain ⟨-, eq2, heq2, hkq⟩ := r3 q hq
      rw [hpq, heq2] at hep
      have he' : eq2 = ep := Option.some.inj hep
      have hk : p.1 = q.1 := by
        rw [← hkp, ← hkq, he']
      exact List.inj_on_of_nodup_map r2 hp hq hk
    have hlt : ∀ x ∈ (ringRun capacity ops).index.map Prod.snd, x < capacity := by
      intro x hx
      obtain ⟨p, hp, hpk⟩ := List.mem_map.1 hx
      rw [← hpk, ← hringlen]
      exact (r3 p hp).1
    have := nodup_lt_length_le _ capacity hsndN hlt
    rwa [List.length_map] at this

/-- Witness for C7: four gets (three distinct keys, one failing refetch)
on caches of capacity 2 leave both lengths at most 2. -/
theorem c7_witness :
    ((condRun 2 [(1, .ok 10), (2, .ok 20), (3, .ok 30), (2, .error "boom")]
        : CondCacheSt Nat Nat).cache.length ≤ 2) ∧
    ((ringRun 2 [(1, .ok 10), (2, .ok 20), (3, .ok 30), (2, .error "boom")]
        : RingCacheSt Nat Nat).index.length ≤ 2) :=
  c7_cache_len_le 2 2 [(1, .ok 10), (2, .ok 20), (3, .ok 30), (2, .error "boom")]
    (by decide)

end Zenith
